import Mathlib

/-!
# Verification of `utility-types` (`src/mapped-types.ts`)

This file gives a shallow embedding of the compile-time type utilities of the
repository and proves the frozen claims about them.

The repository is a library of TypeScript mapped/conditional type aliases.  We
embed the fragment of the TypeScript type language that the claims exercise:

* union types whose members are pairwise-incomparable literal types (the
  library applies its set utilities to unions of property-key names) are
  modelled as lists of their members; `extends` between two such members is
  equality, so the distributive conditional `A extends B ? ... : ...` applied
  to a union member `a` tests membership of `a` in `B`;
* object types are modelled as lists of properties, a property carrying its
  name, its optionality (`?`), its readonly modifier and its value type;
* value types are modelled by the inductive `Ty`: the five primitives of the
  exported `Primitive` alias, `null`, `undefined`, `never`, an (opaque)
  function type, array types (with a readonly flag distinguishing
  `ReadonlyArray` from `Array`), object types, and the union `T | undefined`
  (the only union the deep utilities introduce).
-/

namespace UT

/-! ## Union types as lists of their members

`SetIntersection`, `SetDifference` and `SymmetricDifference` are distributive
conditional types: instantiated at a union `A` they distribute over the
members of `A`, and each member `a` is kept or dropped according to whether
`a extends B`.  For unions of pairwise-incomparable literal members (the
key-name unions this library applies them to) `a extends B` holds exactly
when `a` is a member of the union `B`, so a union type is faithfully
represented by the list of its members. -/

variable {α : Type} [DecidableEq α]

/-- `SetIntersection<A, B> = A extends B ? A : never` (same as `Extract`):
distributing over the members of `A`, a member is kept iff it extends
(i.e. occurs in) `B`. -/
def SetIntersection (A B : List α) : List α := A.filter (· ∈ B)

/-- `SetDifference<A, B> = A extends B ? never : A` (same as `Exclude`):
distributing over the members of `A`, a member is kept iff it does not
extend (i.e. does not occur in) `B`. -/
def SetDifference (A B : List α) : List α := A.filter (· ∉ B)

/-- `SymmetricDifference<A, B> = SetDifference<A | B, A & B>`.  The union
`A | B` concatenates the member lists; the intersection `A & B` of two
unions of literal members normalises to the set intersection of the two
member lists, i.e. `SetIntersection A B`. -/
def SymmetricDifference (A B : List α) : List α :=
  SetDifference (A ++ B) (SetIntersection A B)

/-- `SetComplement<A, A1 extends A> = SetDifference<A, A1>` (the constraint
`A1 extends A` restricts call sites only). -/
def SetComplement (A A1 : List α) : List α := SetDifference A A1

/-! ## The type model -/

/-- The five members of the exported `Primitive` alias:
`number | bigint | boolean | string | symbol`. -/
inductive PrimT : Type where
  | num | big | bool | str | sym
  deriving DecidableEq

mutual
/-- A value type of the embedded TypeScript fragment. -/
inductive Ty : Type where
  /-- one of the `Primitive` members -/
  | prim : PrimT → Ty
  /-- the `null` type -/
  | nullTy : Ty
  /-- the `undefined` type -/
  | undefTy : Ty
  /-- the `never` type -/
  | never : Ty
  /-- an opaque function type (anything matching `(...args: any[]) => any`) -/
  | func : Ty
  /-- an array type; the flag is `true` for `ReadonlyArray<T>`, `false` for `T[]` -/
  | arr : Bool → Ty → Ty
  /-- an object type given by its list of properties -/
  | obj : List Property → Ty
  /-- the union `T | undefined` -/
  | orUndef : Ty → Ty

/-- A property of an object type: name, optional (`?`) modifier,
`readonly` modifier, and declared value type. -/
inductive Property : Type where
  | mk : String → Bool → Bool → Ty → Property
end

/-- The property's key name. -/
def Property.name : Property → String
  | .mk n _ _ _ => n

/-- The property's optional (`?`) modifier. -/
def Property.opt : Property → Bool
  | .mk _ o _ _ => o

/-- The property's `readonly` modifier. -/
def Property.ro : Property → Bool
  | .mk _ _ r _ => r

/-- The property's declared value type as written after the colon. -/
def Property.ty : Property → Ty
  | .mk _ _ _ t => t

/-- Smart union with `undefined`, performing the checker's normalisation
`undefined | undefined = undefined` and `(T | undefined) | undefined =
T | undefined`. -/
def orU : Ty → Ty
  | .undefTy => .undefTy
  | .orUndef t => .orUndef t
  | t => .orUndef t

/-- The type of `T[K]` for a property `p`: under the default
(`exactOptionalPropertyTypes` off) semantics, indexing an optional property
yields its declared type united with `undefined`. -/
def valTy (p : Property) : Ty :=
  if p.opt then orU p.ty else p.ty

/-- `NonUndefined<A> = A extends undefined ? never : A`: distributing over
the members of the union `A`, the member `undefined` becomes `never` (and so
disappears from the union) and every other member is kept. -/
def NonUndefined : Ty → Ty
  | .orUndef t => NonUndefined t
  | .undefTy => .never
  | t => t

/-- The built-in `NonNullable<A>`: excludes both `undefined` and `null` from
the union `A`. -/
def NonNullableTy : Ty → Ty
  | .orUndef t => NonNullableTy t
  | .undefTy => .never
  | .nullTy => .never
  | t => t

/-- Assignability to `Function` (`X extends Function`): function types are
assignable, and so is `never`, which is assignable to every type. -/
def extendsFunction : Ty → Bool
  | .func => true
  | .never => true
  | _ => false

/-- Whether a type *is* a function type (the wording used by the claim about
`FunctionKeys`; note that `never` extends `Function` without being a
function type). -/
def isFunctionTy : Ty → Bool
  | .func => true
  | _ => false

/-! ## Object-type utilities

An object type is a `List Property`.  `keyof T` is the union of the property
names, i.e. the list of names. -/

/-- `keyof T`: the (list of) property key names of `T`. -/
def keysOf (T : List Property) : List String := T.map Property.name

/-- Resolving the property named `k` in the object type `T` (first
declaration wins, as key names of an object type are unique). -/
def lookupProp (k : String) : List Property → Option Property
  | [] => none
  | p :: ps => if p.name = k then some p else lookupProp k ps

/-- `Pick<T, K> = {[P in K]: T[P]}` (built-in): the object type with one
property per member of the key union `K`, carrying the corresponding
property of `T` (value type and modifiers unchanged). -/
def Pick (T : List Property) (K : List String) : List Property :=
  K.filterMap (fun k => lookupProp k T)

/-- `Omit<T, K> = Pick<T, SetDifference<keyof T, K>>`. -/
def Omit (T : List Property) (K : List String) : List Property :=
  Pick T (SetDifference (keysOf T) K)

/-- `Diff<T, U> = Pick<T, SetDifference<keyof T, keyof U>>`. -/
def Diff (T U : List Property) : List Property :=
  Pick T (SetDifference (keysOf T) (keysOf U))

/-- `Intersection<T, U> = Pick<T, Extract<keyof T, keyof U> & Extract<keyof U, keyof T>>`;
`Extract` is `SetIntersection`, and the `&` of the two key unions normalises
to the intersection of their member lists. -/
def Intersection (T U : List Property) : List Property :=
  Pick T (SetIntersection (SetIntersection (keysOf T) (keysOf U))
                          (SetIntersection (keysOf U) (keysOf T)))

/-- Flattening of an intersection `A & B` of two object types, as observed
through `Pick<A & B, keyof (A & B)>`: all properties of `A` together with
the properties of `B` whose keys do not occur in `A`.  (For a key occurring
on both sides the member type of `A & B` would be the intersection of the
two member types; every intersection formed by `Overwrite` and `Assign`
below has pairwise disjoint key sets, so that case never arises and the
left property is kept.) -/
def interObj (A B : List Property) : List Property :=
  A ++ B.filter (fun q => decide (q.name ∉ keysOf A))

/-- `Overwrite<T, U, I = Diff<T, U> & Intersection<U, T>> = Pick<I, keyof I>`
(the default parameter `I` is written out twice). -/
def Overwrite (T U : List Property) : List Property :=
  Pick (interObj (Diff T U) (Intersection U T))
       (keysOf (interObj (Diff T U) (Intersection U T)))

/-- `Assign<T, U, I = Diff<T, U> & Intersection<U, T> & Diff<U, T>> = Pick<I, keyof I>`
(the default parameter `I` is written out twice). -/
def Assign (T U : List Property) : List Property :=
  Pick (interObj (interObj (Diff T U) (Intersection U T)) (Diff U T))
       (keysOf (interObj (interObj (Diff T U) (Intersection U T)) (Diff U T)))

/-- `FunctionKeys<T> = {[K in keyof T]-?: NonUndefined<T[K]> extends Function ? K : never}[keyof T]`:
indexing the mapped type by `keyof T` unions its value types; the `never`
entries disappear, leaving the names of the properties whose
`NonUndefined<T[K]>` extends `Function`. -/
def FunctionKeys (T : List Property) : List String :=
  (T.filter (fun p => extendsFunction (NonUndefined (valTy p)))).map Property.name

/-- `NonFunctionKeys<T> = {[K in keyof T]-?: NonUndefined<T[K]> extends Function ? never : K}[keyof T]`. -/
def NonFunctionKeys (T : List Property) : List String :=
  (T.filter (fun p => !extendsFunction (NonUndefined (valTy p)))).map Property.name

/-- `WritableKeys<T> = {[P in keyof T]-?: IfEquals<{[Q in P]: T[P]}, {-readonly [Q in P]: T[P]}, P>}[keyof T]`:
the `IfEquals` probe compares the property with and without its `readonly`
modifier stripped; the two coincide exactly when the property carries no
`readonly` modifier, which in the model is the `ro` flag. -/
def WritableKeys (T : List Property) : List String :=
  (T.filter (fun p => !p.ro)).map Property.name

/-- `ReadonlyKeys<T>`: the complementary probe, keeping the keys whose
property does carry the `readonly` modifier. -/
def ReadonlyKeys (T : List Property) : List String :=
  (T.filter (fun p => p.ro)).map Property.name

/-- `RequiredKeys<T> = {[K in keyof T]-?: {} extends Pick<T, K> ? never : K}[keyof T]`:
`{}` is assignable to the single-property object `Pick<T, K>` exactly when
that property is optional, so a key is kept when its property is not
optional. -/
def RequiredKeys (T : List Property) : List String :=
  (T.filter (fun p => !p.opt)).map Property.name

/-- `OptionalKeys<T>`: the complementary test, keeping the keys whose
property is optional. -/
def OptionalKeys (T : List Property) : List String :=
  (T.filter (fun p => p.opt)).map Property.name

/-! The four `...ByValue` utilities test `T[Key] extends ValueType` (and,
for the `Exact` variants, the mutual one-tuple test `[ValueType] extends
[T[Key]]` and `[T[Key]] extends [ValueType]`, where the one-tuple wrapping
only suppresses union distribution, which cannot occur here anyway since
`T[Key]` is not a naked type parameter).  These tests invoke the host
checker's assignability relation between two member types - rules this
repository does not define, it only composes them - so the relation is a
parameter `ext` of the model. -/

/-- `PickByValue<T, ValueType> = Pick<T, {[Key in keyof T]: T[Key] extends ValueType ? Key : never}[keyof T]>`,
over the host checker's assignability relation `ext`. -/
def PickByValue (ext : Ty → Ty → Bool) (T : List Property) (V : Ty) : List Property :=
  Pick T ((T.filter (fun p => ext (valTy p) V)).map Property.name)

/-- `PickByValueExact<T, ValueType>`: a key is kept when
`[ValueType] extends [T[Key]]` and `[T[Key]] extends [ValueType]` both hold. -/
def PickByValueExact (ext : Ty → Ty → Bool) (T : List Property) (V : Ty) : List Property :=
  Pick T ((T.filter (fun p => ext V (valTy p) && ext (valTy p) V)).map Property.name)

/-- `OmitByValue<T, ValueType>`: a key is kept when `T[Key] extends ValueType`
does not hold. -/
def OmitByValue (ext : Ty → Ty → Bool) (T : List Property) (V : Ty) : List Property :=
  Pick T ((T.filter (fun p => !ext (valTy p) V)).map Property.name)

/-- `OmitByValueExact<T, ValueType>`: a key is kept unless the mutual
one-tuple test holds. -/
def OmitByValueExact (ext : Ty → Ty → Bool) (T : List Property) (V : Ty) : List Property :=
  Pick T ((T.filter (fun p => !(ext V (valTy p) && ext (valTy p) V))).map Property.name)

/-- `Subtract<T extends T1, T1> = Pick<T, SetComplement<keyof T, keyof T1>>`. -/
def Subtract (T T1 : List Property) : List Property :=
  Pick T (SetComplement (keysOf T) (keysOf T1))

/-- The property transformation of the built-in `Partial<T>`: the
homomorphic mapped type `{[P in keyof T]?: T[P]}` adds the optional
modifier and keeps name, `readonly` modifier and declared type. -/
def partialProp (p : Property) : Property := .mk p.name true p.ro p.ty

/-- The built-in `Partial<T>` on an object type. -/
def PartialObj (T : List Property) : List Property := T.map partialProp

/-- `Optional<T, K extends keyof T> = Omit<T, K> & Partial<Pick<T, K>>`; the
two sides of the `&` have disjoint key sets (`keyof T \ K` and
`keyof T ∩ K`), so the flattened intersection is exact. -/
def Optional (T : List Property) (K : List String) : List Property :=
  interObj (Omit T K) (PartialObj (Pick T K))

/-- `Unionize<T> = {[P in keyof T]: {[Q in P]: T[P]}}[keyof T]`: the union
of the single-property object types, one per key; as with the other union
results the union is modelled as the list of its members.  The inner
single-key mapped type is not homomorphic, so the resulting property is
required and mutable and its type is `T[P]`. -/
def Unionize (T : List Property) : List Ty :=
  T.map (fun p => .obj [.mk p.name false false (valTy p)])

/-- `Brand<T, U> = T & {__brand: U}`: an intersection the checker does not
evaluate further (and `T` need not be an object type, e.g.
`Brand<number, "USD">`), modelled as the pair of its two members; the brand
member is the object type `{__brand: U}`. -/
def Brand (t u : Ty) : Ty × Ty := (t, .obj [.mk "__brand" false false u])

/-- `Exact<A extends object> = A & {__brand: keyof A}`: likewise an
unevaluated intersection; its brand member's value type is the key union
`keyof A`, so the result is modelled as the pair of the object type and
that key-name union (as a member list). -/
def Exact (T : List Property) : List Property × List String := (T, keysOf T)

/-! ## The recursive (deep) utilities

Each is the source's cascade of conditional types
`T extends (...args: any[]) => any ? T : T extends any[] ? ... : T extends object ? ... : T`,
written as a structural match whose cases follow the cascade:

* function types take the first branch and are returned unchanged;
* a mutable array `T[]` takes the second branch (`_Deep...Array`), producing
  an array of the transformed element type (`ReadonlyArray` for
  `DeepReadonly`, whose `_DeepReadonlyArray` extends `ReadonlyArray`);
* `ReadonlyArray<T>` is *not* assignable to `any[]`, so it falls into the
  `T extends object` branch; the `_Deep...Object` mapped types are
  homomorphic, so over an array type they preserve its array-ness and
  transform the element type;
* object types take the `T extends object` branch: the homomorphic mapped
  type transforms each property;
* a union distributes: `Deep...<X | undefined>` is
  `Deep...<X> | Deep...<undefined>`, and `undefined` falls through every
  cascade unchanged (for `DeepRequired`/`DeepNonNullable` it is first
  removed by `NonUndefined`/`NonNullable` where those are applied);
* all remaining types (primitives, `null`, `undefined`) fall through the
  cascade unchanged, and `never` (the empty union) distributes to `never`.

For a property `p`, `T[P]` is `valTy p`; where the source writes
`Deep...<T[P]>` we inline the distribution of the cascade over the
`| undefined` part of `valTy p` so that the recursion is structural; the
`..._valTy` lemmas below prove the inlined form equal to the source's form.
Likewise `DeepRequiredNU t` / `DeepNonNullableNN t` fuse the source's
`DeepRequired<NonUndefined<->>` / `DeepNonNullable<NonNullable<->>`
compositions into single structural functions, and the `..._fused` lemmas
prove them equal to the compositions. -/

mutual
/-- `DeepReadonly<T>` (source lines 415-428). -/
def DeepReadonly : Ty → Ty
  | .func => .func
  | .arr _ e => .arr true (DeepReadonly e)
  | .obj ps => .obj (DeepReadonlyProps ps)
  | .orUndef t => orU (DeepReadonly t)
  | t => t

/-- `_DeepReadonlyObject<T> = {readonly [P in keyof T]: DeepReadonly<T[P]>}`. -/
def DeepReadonlyProps : List Property → List Property
  | [] => []
  | .mk n o _ t :: ps =>
      .mk n o true (if o then orU (DeepReadonly t) else DeepReadonly t)
        :: DeepReadonlyProps ps
end

mutual
/-- `DeepRequired<T>` (source lines 450-464). -/
def DeepRequired : Ty → Ty
  | .func => .func
  | .arr ro e => .arr ro (DeepRequiredNU e)
  | .obj ps => .obj (DeepRequiredProps ps)
  | .orUndef t => orU (DeepRequired t)
  | t => t

/-- `DeepRequired<NonUndefined<T>>`, fused. -/
def DeepRequiredNU : Ty → Ty
  | .orUndef t => DeepRequiredNU t
  | .undefTy => .never
  | .func => .func
  | .arr ro e => .arr ro (DeepRequiredNU e)
  | .obj ps => .obj (DeepRequiredProps ps)
  | t => t

/-- `_DeepRequiredObject<T> = {[P in keyof T]-?: DeepRequired<NonUndefined<T[P]>>}`. -/
def DeepRequiredProps : List Property → List Property
  | [] => []
  | .mk n _ r t :: ps => .mk n false r (DeepRequiredNU t) :: DeepRequiredProps ps
end

mutual
/-- `DeepNonNullable<T>` (source lines 487-501). -/
def DeepNonNullable : Ty → Ty
  | .func => .func
  | .arr ro e => .arr ro (DeepNonNullableNN e)
  | .obj ps => .obj (DeepNonNullableProps ps)
  | .orUndef t => orU (DeepNonNullable t)
  | t => t

/-- `DeepNonNullable<NonNullable<T>>`, fused. -/
def DeepNonNullableNN : Ty → Ty
  | .orUndef t => DeepNonNullableNN t
  | .undefTy => .never
  | .nullTy => .never
  | .func => .func
  | .arr ro e => .arr ro (DeepNonNullableNN e)
  | .obj ps => .obj (DeepNonNullableProps ps)
  | t => t

/-- `_DeepNonNullableObject<T> = {[P in keyof T]-?: DeepNonNullable<NonNullable<T[P]>>}`. -/
def DeepNonNullableProps : List Property → List Property
  | [] => []
  | .mk n _ r t :: ps => .mk n false r (DeepNonNullableNN t) :: DeepNonNullableProps ps
end

mutual
/-- `DeepPartial<T> = T extends Function ? T : T extends Array<infer U> ? _DeepPartialArray<U> : T extends object ? _DeepPartialObject<T> : T | undefined`
(source lines 523-534).  `never` distributes to `never`; every other
non-function non-array non-object type falls to the `T | undefined` arm. -/
def DeepPartial : Ty → Ty
  | .func => .func
  | .arr ro e => .arr ro (DeepPartial e)
  | .obj ps => .obj (DeepPartialProps ps)
  | .orUndef t => orU (DeepPartial t)
  | .never => .never
  | .undefTy => .undefTy
  | t => .orUndef t

/-- `_DeepPartialObject<T> = {[P in keyof T]?: DeepPartial<T[P]>}`. -/
def DeepPartialProps : List Property → List Property
  | [] => []
  | .mk n o r t :: ps =>
      .mk n true r (if o then orU (DeepPartial t) else DeepPartial t)
        :: DeepPartialProps ps
end

/-! ## `PromiseType`

`Promise` types do not otherwise occur in the model, so `PromiseType<T>` is
settled over a dedicated grammar: a type is either `Promise<U>` for some
type of the same grammar, or a non-`Promise` type drawn from `Ty`. -/

inductive PTy : Type where
  /-- `Promise<U>` -/
  | promise : PTy → PTy
  /-- a type that is not a `Promise` -/
  | base : Ty → PTy

/-- The declared constraint `T extends Promise<any>` of `PromiseType`. -/
def extendsPromiseAny : PTy → Bool
  | .promise _ => true
  | .base _ => false

/-- `PromiseType<T extends Promise<any>> = T extends Promise<infer U> ? U : never`. -/
def PromiseType : PTy → PTy
  | .promise u => u
  | .base _ => .base .never

/-! ## The grammar of claim C1/C10

"types built from primitives, functions, arrays, and finitely nested object
types". -/

mutual
def PlainTy : Ty → Bool
  | .prim _ => true
  | .func => true
  | .arr _ e => PlainTy e
  | .obj ps => PlainProps ps
  | _ => false

def PlainProps : List Property → Bool
  | [] => true
  | .mk _ _ _ t :: ps => PlainTy t && PlainProps ps
end

/-! ## Structural equality of types

The host checker compares object types up to reordering of their
properties.  `canonTy` computes a canonical form by recursively sorting the
properties of every object type by name; two types are structurally equal
iff their canonical forms coincide. -/

/-- Strict lexicographic order on character lists, by code point. -/
def charsLt : List Char → List Char → Bool
  | [], [] => false
  | [], _ :: _ => true
  | _ :: _, [] => false
  | a :: as, b :: bs =>
      decide (a.toNat < b.toNat) || (decide (a.toNat = b.toNat) && charsLt as bs)

/-- Strict lexicographic order on strings. -/
def strLt (a b : String) : Bool := charsLt a.data b.data

/-- Non-strict lexicographic order on strings. -/
def strLe (a b : String) : Bool := strLt a b || decide (a = b)

theorem char_toNat_inj {a b : Char} (h : a.toNat = b.toNat) : a = b :=
  Char.ext (UInt32.toNat.inj h)

theorem string_data_inj {a b : String} (h : a.data = b.data) : a = b := by
  cases a
  cases b
  exact congrArg String.mk h

theorem charsLt_irrefl : ∀ x, charsLt x x = false
  | [] => rfl
  | a :: as => by
      simp [charsLt, charsLt_irrefl as]

theorem charsLt_trans : ∀ {x y z : List Char},
    charsLt x y = true → charsLt y z = true → charsLt x z = true
  | [], _ :: _, _ :: _, _, _ => rfl
  | a :: as, b :: bs, c :: cs, h1, h2 => by
      simp only [charsLt, Bool.or_eq_true, Bool.and_eq_true,
        decide_eq_true_eq] at h1 h2 ⊢
      rcases h1 with h1 | ⟨h1e, h1r⟩ <;> rcases h2 with h2 | ⟨h2e, h2r⟩
      · exact Or.inl (Nat.lt_trans h1 h2)
      · exact Or.inl (h2e ▸ h1)
      · exact Or.inl (h1e ▸ h2)
      · exact Or.inr ⟨h1e.trans h2e, charsLt_trans h1r h2r⟩

theorem charsLt_total : ∀ x y : List Char,
    charsLt x y = true ∨ charsLt y x = true ∨ x = y
  | [], [] => Or.inr (Or.inr rfl)
  | [], _ :: _ => Or.inl rfl
  | _ :: _, [] => Or.inr (Or.inl rfl)
  | a :: as, b :: bs => by
      rcases Nat.lt_trichotomy a.toNat b.toNat with h | h | h
      · exact Or.inl (by simp [charsLt, h])
      · rcases charsLt_total as bs with hr | hr | hr
        · exact Or.inl (by simp [charsLt, h, hr])
        · exact Or.inr (Or.inl (by simp [charsLt, h.symm, hr]))
        · exact Or.inr (Or.inr (by rw [char_toNat_inj h, hr]))
      · exact Or.inr (Or.inl (by simp [charsLt, h]))

theorem strLt_asymm {a b : String} (h1 : strLt a b = true) (h2 : strLt b a = true) :
    False := by
  have := charsLt_trans (x := a.data) h1 h2
  rw [charsLt_irrefl] at this
  cases this

theorem strLe_total (a b : String) : strLe a b = true ∨ strLe b a = true := by
  rcases charsLt_total a.data b.data with h | h | h
  · exact Or.inl (by simp [strLe, strLt, h])
  · exact Or.inr (by simp [strLe, strLt, h])
  · exact Or.inl (by simp [strLe, string_data_inj h])

theorem strLe_trans {a b c : String} (h1 : strLe a b = true) (h2 : strLe b c = true) :
    strLe a c = true := by
  simp only [strLe, Bool.or_eq_true, decide_eq_true_eq] at h1 h2 ⊢
  rcases h1 with h1 | rfl
  · rcases h2 with h2 | rfl
    · exact Or.inl (charsLt_trans h1 h2)
    · exact Or.inl h1
  · exact h2

theorem strLe_antisymm {a b : String} (h1 : strLe a b = true) (h2 : strLe b a = true) :
    a = b := by
  simp only [strLe, Bool.or_eq_true, decide_eq_true_eq] at h1 h2
  rcases h1 with h1 | rfl
  · rcases h2 with h2 | rfl
    · exact absurd (charsLt_trans h1 h2) (by rw [charsLt_irrefl]; exact fun h => nomatch h)
    · rfl
  · rfl

/-- Order of properties by name, used to canonicalise property order. -/
def propLE (p q : Property) : Prop := strLe p.name q.name = true

instance : DecidableRel propLE := fun p q =>
  (inferInstance : Decidable (strLe p.name q.name = true))

instance : IsTotal Property propLE := ⟨fun p q => strLe_total p.name q.name⟩

instance : IsTrans Property propLE := ⟨fun _ _ _ h h' => strLe_trans h h'⟩

/-- Sort a property list by name. -/
def sortProps (ps : List Property) : List Property := ps.insertionSort propLE

mutual
/-- Canonical form: recursively sort every object type's properties. -/
def canonTy : Ty → Ty
  | .arr ro e => .arr ro (canonTy e)
  | .obj ps => .obj (sortProps (canonProps ps))
  | .orUndef t => .orUndef (canonTy t)
  | t => t

def canonProps : List Property → List Property
  | [] => []
  | .mk n o r t :: ps => .mk n o r (canonTy t) :: canonProps ps
end

/-- Structural equality of types: equality of canonical forms. -/
def structEq (a b : Ty) : Prop := canonTy a = canonTy b

/-! ## Sizes and fuel-bounded evaluators

Claim C1 is about termination of the four recursive utilities.  Each is
re-expressed as a fuel-bounded evaluator that consumes one unit of fuel per
unfolding step and returns `none` when the fuel runs out; the theorem shows
that on every input, fuel equal to the size of the input suffices, and every
sufficient amount of fuel yields the same uniquely determined result. -/

mutual
def sizeT : Ty → Nat
  | .arr _ e => sizeT e + 1
  | .obj ps => sizeP ps + 1
  | .orUndef t => sizeT t + 1
  | _ => 1

def sizeP : List Property → Nat
  | [] => 1
  | .mk _ _ _ t :: ps => sizeT t + sizeP ps + 1
end

mutual
def DeepReadonlyF : Nat → Ty → Option Ty
  | 0, _ => none
  | _+1, .func => some .func
  | n+1, .arr _ e => (DeepReadonlyF n e).map (Ty.arr true)
  | n+1, .obj ps => (DeepReadonlyPropsF n ps).map Ty.obj
  | n+1, .orUndef t => (DeepReadonlyF n t).map orU
  | _+1, t => some t

def DeepReadonlyPropsF : Nat → List Property → Option (List Property)
  | 0, _ => none
  | _+1, [] => some []
  | n+1, .mk nm o _ t :: ps => do
      let t' ← DeepReadonlyF n t
      let rest ← DeepReadonlyPropsF n ps
      some (.mk nm o true (if o then orU t' else t') :: rest)
end

mutual
def DeepRequiredF : Nat → Ty → Option Ty
  | 0, _ => none
  | _+1, .func => some .func
  | n+1, .arr ro e => (DeepRequiredNUF n e).map (Ty.arr ro)
  | n+1, .obj ps => (DeepRequiredPropsF n ps).map Ty.obj
  | n+1, .orUndef t => (DeepRequiredF n t).map orU
  | _+1, t => some t

def DeepRequiredNUF : Nat → Ty → Option Ty
  | 0, _ => none
  | n+1, .orUndef t => DeepRequiredNUF n t
  | _+1, .undefTy => some .never
  | _+1, .func => some .func
  | n+1, .arr ro e => (DeepRequiredNUF n e).map (Ty.arr ro)
  | n+1, .obj ps => (DeepRequiredPropsF n ps).map Ty.obj
  | _+1, t => some t

def DeepRequiredPropsF : Nat → List Property → Option (List Property)
  | 0, _ => none
  | _+1, [] => some []
  | n+1, .mk nm _ r t :: ps => do
      let t' ← DeepRequiredNUF n t
      let rest ← DeepRequiredPropsF n ps
      some (.mk nm false r t' :: rest)
end

mutual
def DeepNonNullableF : Nat → Ty → Option Ty
  | 0, _ => none
  | _+1, .func => some .func
  | n+1, .arr ro e => (DeepNonNullableNNF n e).map (Ty.arr ro)
  | n+1, .obj ps => (DeepNonNullablePropsF n ps).map Ty.obj
  | n+1, .orUndef t => (DeepNonNullableF n t).map orU
  | _+1, t => some t

def DeepNonNullableNNF : Nat → Ty → Option Ty
  | 0, _ => none
  | n+1, .orUndef t => DeepNonNullableNNF n t
  | _+1, .undefTy => some .never
  | _+1, .nullTy => some .never
  | _+1, .func => some .func
  | n+1, .arr ro e => (DeepNonNullableNNF n e).map (Ty.arr ro)
  | n+1, .obj ps => (DeepNonNullablePropsF n ps).map Ty.obj
  | _+1, t => some t

def DeepNonNullablePropsF : Nat → List Property → Option (List Property)
  | 0, _ => none
  | _+1, [] => some []
  | n+1, .mk nm _ r t :: ps => do
      let t' ← DeepNonNullableNNF n t
      let rest ← DeepNonNullablePropsF n ps
      some (.mk nm false r t' :: rest)
end

mutual
def DeepPartialF : Nat → Ty → Option Ty
  | 0, _ => none
  | _+1, .func => some .func
  | n+1, .arr ro e => (DeepPartialF n e).map (Ty.arr ro)
  | n+1, .obj ps => (DeepPartialPropsF n ps).map Ty.obj
  | n+1, .orUndef t => (DeepPartialF n t).map orU
  | _+1, .never => some .never
  | _+1, .undefTy => some .undefTy
  | _+1, t => some (.orUndef t)

def DeepPartialPropsF : Nat → List Property → Option (List Property)
  | 0, _ => none
  | _+1, [] => some []
  | n+1, .mk nm o r t :: ps => do
      let t' ← DeepPartialF n t
      let rest ← DeepPartialPropsF n ps
      some (.mk nm true r (if o then orU t' else t') :: rest)
end

/-! ## Basic lemmas about the model -/

theorem orU_orU (t : Ty) : orU (orU t) = orU t := by
  cases t <;> rfl

theorem NonUndefined_orU (t : Ty) : NonUndefined (orU t) = NonUndefined t := by
  cases t <;> rfl

theorem NonNullableTy_orU (t : Ty) : NonNullableTy (orU t) = NonNullableTy t := by
  cases t <;> rfl

theorem DeepReadonly_orU (t : Ty) : DeepReadonly (orU t) = orU (DeepReadonly t) := by
  cases t <;> first | rfl | exact (orU_orU _).symm

theorem DeepPartial_orU (t : Ty) : DeepPartial (orU t) = orU (DeepPartial t) := by
  cases t <;> first | rfl | exact (orU_orU _).symm

/-- Faithfulness of the inlined `_DeepReadonlyObject` property case: the
value computed for a property is exactly `DeepReadonly<T[P]>`. -/
theorem DeepReadonly_valTy (n : String) (o r : Bool) (t : Ty) :
    (if o then orU (DeepReadonly t) else DeepReadonly t)
      = DeepReadonly (valTy (.mk n o r t)) := by
  cases o <;> simp [valTy, Property.opt, Property.ty, DeepReadonly_orU]

/-- Faithfulness of the inlined `_DeepPartialObject` property case: the
value computed for a property is exactly `DeepPartial<T[P]>`. -/
theorem DeepPartial_valTy (n : String) (o r : Bool) (t : Ty) :
    (if o then orU (DeepPartial t) else DeepPartial t)
      = DeepPartial (valTy (.mk n o r t)) := by
  cases o <;> simp [valTy, Property.opt, Property.ty, DeepPartial_orU]

/-- Faithfulness of the fused `DeepRequiredNU`: it equals the source's
composition `DeepRequired<NonUndefined<->>`. -/
theorem DeepRequiredNU_fused : (t : Ty) → DeepRequiredNU t = DeepRequired (NonUndefined t)
  | .orUndef t => by
      rw [show NonUndefined (.orUndef t) = NonUndefined t from rfl]
      rw [show DeepRequiredNU (.orUndef t) = DeepRequiredNU t from rfl]
      exact DeepRequiredNU_fused t
  | .prim _ => rfl
  | .nullTy => rfl
  | .undefTy => rfl
  | .never => rfl
  | .func => rfl
  | .arr _ _ => rfl
  | .obj _ => rfl

/-- Faithfulness of the fused `DeepNonNullableNN`: it equals the source's
composition `DeepNonNullable<NonNullable<->>`. -/
theorem DeepNonNullableNN_fused :
    (t : Ty) → DeepNonNullableNN t = DeepNonNullable (NonNullableTy t)
  | .orUndef t => by
      rw [show NonNullableTy (.orUndef t) = NonNullableTy t from rfl]
      rw [show DeepNonNullableNN (.orUndef t) = DeepNonNullableNN t from rfl]
      exact DeepNonNullableNN_fused t
  | .prim _ => rfl
  | .nullTy => rfl
  | .undefTy => rfl
  | .never => rfl
  | .func => rfl
  | .arr _ _ => rfl
  | .obj _ => rfl

/-- For a property, `NonUndefined<T[P]>` only depends on the declared type:
the `| undefined` contributed by optionality is stripped. -/
theorem NonUndefined_valTy (p : Property) : NonUndefined (valTy p) = NonUndefined p.ty := by
  rw [valTy]
  cases p.opt <;> simp [NonUndefined_orU]

/-! ## Lookup lemmas for the object-type utilities -/

theorem lookupProp_name {k : String} {T : List Property} {p : Property}
    (h : lookupProp k T = some p) : p.name = k := by
  induction T with
  | nil => simp [lookupProp] at h
  | cons q T ih =>
      rw [lookupProp] at h
      split at h
      · cases h; assumption
      · exact ih h

theorem lookupProp_eq_none {k : String} {T : List Property} :
    lookupProp k T = none ↔ k ∉ keysOf T := by
  induction T with
  | nil => simp [lookupProp, keysOf]
  | cons q T ih =>
      rw [lookupProp, keysOf]
      by_cases hq : q.name = k
      · simp [hq, keysOf]
      · simp only [if_neg hq, List.map_cons, List.mem_cons]
        rw [ih]
        constructor
        · intro h hk
          rcases hk with hk | hk
          · exact hq hk.symm
          · exact h (by rwa [keysOf])
        · intro h hk
          exact h (Or.inr (by rwa [keysOf] at hk))

theorem mem_keysOf_iff_lookup {k : String} {T : List Property} :
    k ∈ keysOf T ↔ ∃ p, lookupProp k T = some p := by
  constructor
  · intro h
    cases hl : lookupProp k T with
    | none => exact absurd h (lookupProp_eq_none.mp hl)
    | some p => exact ⟨p, rfl⟩
  · rintro ⟨p, hp⟩
    by_contra hk
    rw [← lookupProp_eq_none] at hk
    rw [hk] at hp
    cases hp

theorem keysOf_cons (p : Property) (L : List Property) :
    keysOf (p :: L) = p.name :: keysOf L := rfl

theorem Pick_cons_some {T : List Property} {k : String} {p : Property}
    (K : List String) (h : lookupProp k T = some p) :
    Pick T (k :: K) = p :: Pick T K := by
  simp only [Pick, List.filterMap_cons, h]

theorem Pick_cons_none {T : List Property} {k : String}
    (K : List String) (h : lookupProp k T = none) :
    Pick T (k :: K) = Pick T K := by
  simp only [Pick, List.filterMap_cons, h]

theorem lookup_Pick (T : List Property) (K : List String) (k : String) :
    lookupProp k (Pick T K) = if k ∈ K then lookupProp k T else none := by
  induction K with
  | nil => simp [Pick, lookupProp]
  | cons k' K ih =>
      cases hl : lookupProp k' T with
      | none =>
          rw [Pick_cons_none K hl, ih]
          by_cases hk : k = k'
          · subst hk
            simp [hl]
          · simp [List.mem_cons, hk]
      | some p =>
          have hn := lookupProp_name hl
          rw [Pick_cons_some K hl, lookupProp, ih]
          by_cases hk : k = k'
          · subst hk
            simp [hn, hl]
          · rw [if_neg (fun h => hk (hn.symm.trans h).symm)]
            simp [List.mem_cons, hk]

theorem keysOf_Pick (T : List Property) (K : List String) :
    keysOf (Pick T K) = K.filter (fun k => decide (k ∈ keysOf T)) := by
  induction K with
  | nil => rfl
  | cons k K ih =>
      cases hl : lookupProp k T with
      | none =>
          have hnm : k ∉ keysOf T := lookupProp_eq_none.mp hl
          rw [Pick_cons_none K hl]
          simp [ih, hnm, List.filter_cons]
      | some p =>
          have hmem : k ∈ keysOf T := mem_keysOf_iff_lookup.mpr ⟨p, hl⟩
          rw [Pick_cons_some K hl, keysOf_cons, lookupProp_name hl]
          simp [ih, hmem, List.filter_cons]

theorem lookup_append_left {k : String} {A : List Property} {p : Property}
    (B : List Property) (h : lookupProp k A = some p) :
    lookupProp k (A ++ B) = some p := by
  induction A with
  | nil => simp [lookupProp] at h
  | cons q A ih =>
      rw [List.cons_append]
      rw [lookupProp] at h ⊢
      split at h
      · rwa [if_pos (by assumption)]
      · rw [if_neg (by assumption)]
        exact ih h

theorem lookup_append_right {k : String} {A : List Property}
    (B : List Property) (h : lookupProp k A = none) :
    lookupProp k (A ++ B) = lookupProp k B := by
  induction A with
  | nil => rfl
  | cons q A ih =>
      rw [List.cons_append]
      rw [lookupProp] at h ⊢
      split at h
      · cases h
      · rw [if_neg (by assumption)]
        exact ih h

theorem lookup_filter_true {k : String} {f : Property → Bool} {B : List Property}
    (hf : ∀ q, q.name = k → f q = true) :
    lookupProp k (B.filter f) = lookupProp k B := by
  induction B with
  | nil => rfl
  | cons q B ih =>
      rw [List.filter]
      by_cases hq : q.name = k
      · rw [hf q hq, lookupProp, if_pos hq, lookupProp, if_pos hq]
      · cases hfq : f q
        · rw [lookupProp, if_neg hq]
          exact ih
        · rw [lookupProp, if_neg hq, lookupProp, if_neg hq]
          exact ih

theorem lookup_filter_none {k : String} {f : Property → Bool} {B : List Property}
    (h : lookupProp k B = none) :
    lookupProp k (B.filter f) = none := by
  induction B with
  | nil => rfl
  | cons q B ih =>
      rw [lookupProp] at h
      split at h
      · cases h
      · rw [List.filter]
        cases f q
        · exact ih h
        · rw [lookupProp, if_neg (by assumption)]
          exact ih h

/-! ## Lookup characterisations of `Diff`, `Intersection`, `interObj`,
`Overwrite` -/

theorem lookup_Pick_SetDifference (T : List Property) (K : List String) (k : String) :
    lookupProp k (Pick T (SetDifference (keysOf T) K))
      = if k ∈ K then none else lookupProp k T := by
  rw [lookup_Pick]
  by_cases hK : k ∈ K
  · have hd : k ∉ SetDifference (keysOf T) K := by
      simp [SetDifference, List.mem_filter, hK]
    simp [hd, hK]
  · by_cases hT : k ∈ keysOf T
    · have hd : k ∈ SetDifference (keysOf T) K := by
        simp [SetDifference, List.mem_filter, hT, hK]
      simp [hd, hK]
    · have hd : k ∉ SetDifference (keysOf T) K := by
        simp [SetDifference, List.mem_filter, hT]
      simp [hd, hK, lookupProp_eq_none.mpr hT]

theorem lookup_Diff (T U : List Property) (k : String) :
    lookupProp k (Diff T U) = if k ∈ keysOf U then none else lookupProp k T := by
  rw [Diff]
  exact lookup_Pick_SetDifference T (keysOf U) k

theorem lookup_Intersection (T U : List Property) (k : String) :
    lookupProp k (Intersection T U)
      = if k ∈ keysOf T ∧ k ∈ keysOf U then lookupProp k T else none := by
  rw [Intersection, lookup_Pick]
  have hc : k ∈ SetIntersection (SetIntersection (keysOf T) (keysOf U))
                (SetIntersection (keysOf U) (keysOf T))
      ↔ (k ∈ keysOf T ∧ k ∈ keysOf U) := by
    simp [SetIntersection, List.mem_filter]
    tauto
  by_cases h : k ∈ keysOf T ∧ k ∈ keysOf U
  · rw [if_pos (hc.mpr h), if_pos h]
  · rw [if_neg (fun hx => h (hc.mp hx)), if_neg h]

theorem lookup_interObj_left {k : String} {A : List Property} {p : Property}
    (B : List Property) (h : lookupProp k A = some p) :
    lookupProp k (interObj A B) = some p :=
  lookup_append_left _ h

theorem lookup_interObj_right {k : String} {A : List Property}
    (B : List Property) (h : lookupProp k A = none) :
    lookupProp k (interObj A B) = lookupProp k B := by
  rw [interObj, lookup_append_right _ h, lookup_filter_true]
  intro q hq
  rw [hq]
  exact decide_eq_true (lookupProp_eq_none.mp h)

theorem lookup_Overwrite (T U : List Property) (k : String) :
    lookupProp k (Overwrite T U)
      = if k ∈ keysOf T then
          (if k ∈ keysOf U then lookupProp k U else lookupProp k T)
        else none := by
  have hI : lookupProp k (interObj (Diff T U) (Intersection U T))
      = if k ∈ keysOf T then
          (if k ∈ keysOf U then lookupProp k U else lookupProp k T)
        else none := by
    by_cases hT : k ∈ keysOf T <;> by_cases hU : k ∈ keysOf U
    · have hd : lookupProp k (Diff T U) = none := by
        rw [lookup_Diff, if_pos hU]
      rw [lookup_interObj_right _ hd, lookup_Intersection, if_pos ⟨hU, hT⟩,
        if_pos hT, if_pos hU]
    · obtain ⟨p, hp⟩ := mem_keysOf_iff_lookup.mp hT
      have hd : lookupProp k (Diff T U) = some p := by
        rw [lookup_Diff, if_neg hU]
        exact hp
      rw [lookup_interObj_left _ hd, if_pos hT, if_neg hU, hp]
    · have hd : lookupProp k (Diff T U) = none := by
        rw [lookup_Diff, if_pos hU]
      rw [lookup_interObj_right _ hd, lookup_Intersection,
        if_neg (fun hx => hT hx.2), if_neg hT]
    · have hd : lookupProp k (Diff T U) = none := by
        rw [lookup_Diff, if_neg hU]
        exact lookupProp_eq_none.mpr hT
      rw [lookup_interObj_right _ hd, lookup_Intersection,
        if_neg (fun hx => hT hx.2), if_neg hT]
  rw [Overwrite, lookup_Pick]
  by_cases hk : k ∈ keysOf (interObj (Diff T U) (Intersection U T))
  · rw [if_pos hk]
    exact hI
  · rw [if_neg hk]
    rw [lookupProp_eq_none.mpr hk] at hI
    exact hI

/-! ## Termination: fuel sufficiency (claim C1) -/

theorem sizeT_pos (t : Ty) : 1 <= sizeT t := by
  cases t <;> simp [sizeT]

theorem sizeP_pos (ps : List Property) : 1 <= sizeP ps := by
  cases ps with
  | nil => simp [sizeP]
  | cons p ps => cases p with
    | mk n o r t => simp [sizeP]

theorem DeepReadonlyF_sufficient : ∀ n : Nat,
    (∀ t, sizeT t <= n → DeepReadonlyF n t = some (DeepReadonly t)) ∧
    (∀ ps, sizeP ps <= n → DeepReadonlyPropsF n ps = some (DeepReadonlyProps ps)) := by
  intro n
  induction n with
  | zero =>
      constructor
      · intro t h
        exact absurd h (by have := sizeT_pos t; omega)
      · intro ps h
        exact absurd h (by have := sizeP_pos ps; omega)
  | succ n ih =>
      obtain ⟨ihT, ihP⟩ := ih
      constructor
      · intro t h
        cases t with
        | prim p => rfl
        | nullTy => rfl
        | undefTy => rfl
        | never => rfl
        | func => rfl
        | arr ro e =>
            have he : sizeT e <= n := by simp [sizeT] at h; omega
            rw [show DeepReadonlyF (n+1) (.arr ro e)
                = (DeepReadonlyF n e).map (Ty.arr true) from rfl, ihT e he]
            rfl
        | obj ps =>
            have hp : sizeP ps <= n := by simp [sizeT] at h; omega
            rw [show DeepReadonlyF (n+1) (.obj ps)
                = (DeepReadonlyPropsF n ps).map Ty.obj from rfl, ihP ps hp]
            rfl
        | orUndef t' =>
            have ht : sizeT t' <= n := by simp [sizeT] at h; omega
            rw [show DeepReadonlyF (n+1) (.orUndef t')
                = (DeepReadonlyF n t').map orU from rfl, ihT t' ht]
            rfl
      · intro ps h
        cases ps with
        | nil => rfl
        | cons p ps' =>
            cases p with
            | mk nm o r t =>
                have h1 : sizeT t <= n := by simp [sizeP] at h; omega
                have h2 : sizeP ps' <= n := by simp [sizeP] at h; omega
                rw [show DeepReadonlyPropsF (n+1) (Property.mk nm o r t :: ps')
                    = (DeepReadonlyF n t).bind (fun t' =>
                        (DeepReadonlyPropsF n ps').bind (fun rest =>
                          some (.mk nm o true (if o then orU t' else t') :: rest)))
                    from rfl, ihT t h1, ihP ps' h2]
                rfl

theorem DeepRequiredF_sufficient : ∀ n : Nat,
    (∀ t, sizeT t <= n → DeepRequiredF n t = some (DeepRequired t)) ∧
    (∀ t, sizeT t <= n → DeepRequiredNUF n t = some (DeepRequiredNU t)) ∧
    (∀ ps, sizeP ps <= n → DeepRequiredPropsF n ps = some (DeepRequiredProps ps)) := by
  intro n
  induction n with
  | zero =>
      refine ⟨?_, ?_, ?_⟩
      · intro t h
        exact absurd h (by have := sizeT_pos t; omega)
      · intro t h
        exact absurd h (by have := sizeT_pos t; omega)
      · intro ps h
        exact absurd h (by have := sizeP_pos ps; omega)
  | succ n ih =>
      obtain ⟨ihT, ihNU, ihP⟩ := ih
      refine ⟨?_, ?_, ?_⟩
      · intro t h
        cases t with
        | prim p => rfl
        | nullTy => rfl
        | undefTy => rfl
        | never => rfl
        | func => rfl
        | arr ro e =>
            have he : sizeT e <= n := by simp [sizeT] at h; omega
            rw [show DeepRequiredF (n+1) (.arr ro e)
                = (DeepRequiredNUF n e).map (Ty.arr ro) from rfl, ihNU e he]
            rfl
        | obj ps =>
            have hp : sizeP ps <= n := by simp [sizeT] at h; omega
            rw [show DeepRequiredF (n+1) (.obj ps)
                = (DeepRequiredPropsF n ps).map Ty.obj from rfl, ihP ps hp]
            rfl
        | orUndef t' =>
            have ht : sizeT t' <= n := by simp [sizeT] at h; omega
            rw [show DeepRequiredF (n+1) (.orUndef t')
                = (DeepRequiredF n t').map orU from rfl, ihT t' ht]
            rfl
      · intro t h
        cases t with
        | prim p => rfl
        | nullTy => rfl
        | undefTy => rfl
        | never => rfl
        | func => rfl
        | arr ro e =>
            have he : sizeT e <= n := by simp [sizeT] at h; omega
            rw [show DeepRequiredNUF (n+1) (.arr ro e)
                = (DeepRequiredNUF n e).map (Ty.arr ro) from rfl, ihNU e he]
            rfl
        | obj ps =>
            have hp : sizeP ps <= n := by simp [sizeT] at h; omega
            rw [show DeepRequiredNUF (n+1) (.obj ps)
                = (DeepRequiredPropsF n ps).map Ty.obj from rfl, ihP ps hp]
            rfl
        | orUndef t' =>
            have ht : sizeT t' <= n := by simp [sizeT] at h; omega
            rw [show DeepRequiredNUF (n+1) (.orUndef t')
                = DeepRequiredNUF n t' from rfl, ihNU t' ht]
            rfl
      · intro ps h
        cases ps with
        | nil => rfl
        | cons p ps' =>
            cases p with
            | mk nm o r t =>
                have h1 : sizeT t <= n := by simp [sizeP] at h; omega
                have h2 : sizeP ps' <= n := by simp [sizeP] at h; omega
                rw [show DeepRequiredPropsF (n+1) (Property.mk nm o r t :: ps')
                    = (DeepRequiredNUF n t).bind (fun t' =>
                        (DeepRequiredPropsF n ps').bind (fun rest =>
                          some (.mk nm false r t' :: rest)))
                    from rfl, ihNU t h1, ihP ps' h2]
                rfl

theorem DeepNonNullableF_sufficient : ∀ n : Nat,
    (∀ t, sizeT t <= n → DeepNonNullableF n t = some (DeepNonNullable t)) ∧
    (∀ t, sizeT t <= n → DeepNonNullableNNF n t = some (DeepNonNullableNN t)) ∧
    (∀ ps, sizeP ps <= n → DeepNonNullablePropsF n ps = some (DeepNonNullableProps ps)) := by
  intro n
  induction n with
  | zero =>
      refine ⟨?_, ?_, ?_⟩
      · intro t h
        exact absurd h (by have := sizeT_pos t; omega)
      · intro t h
        exact absurd h (by have := sizeT_pos t; omega)
      · intro ps h
        exact absurd h (by have := sizeP_pos ps; omega)
  | succ n ih =>
      obtain ⟨ihT, ihNN, ihP⟩ := ih
      refine ⟨?_, ?_, ?_⟩
      · intro t h
        cases t with
        | prim p => rfl
        | nullTy => rfl
        | undefTy => rfl
        | never => rfl
        | func => rfl
        | arr ro e =>
            have he : sizeT e <= n := by simp [sizeT] at h; omega
            rw [show DeepNonNullableF (n+1) (.arr ro e)
                = (DeepNonNullableNNF n e).map (Ty.arr ro) from rfl, ihNN e he]
            rfl
        | obj ps =>
            have hp : sizeP ps <= n := by simp [sizeT] at h; omega
            rw [show DeepNonNullableF (n+1) (.obj ps)
                = (DeepNonNullablePropsF n ps).map Ty.obj from rfl, ihP ps hp]
            rfl
        | orUndef t' =>
            have ht : sizeT t' <= n := by simp [sizeT] at h; omega
            rw [show DeepNonNullableF (n+1) (.orUndef t')
                = (DeepNonNullableF n t').map orU from rfl, ihT t' ht]
            rfl
      · intro t h
        cases t with
        | prim p => rfl
        | nullTy => rfl
        | undefTy => rfl
        | never => rfl
        | func => rfl
        | arr ro e =>
            have he : sizeT e <= n := by simp [sizeT] at h; omega
            rw [show DeepNonNullableNNF (n+1) (.arr ro e)
                = (DeepNonNullableNNF n e).map (Ty.arr ro) from rfl, ihNN e he]
            rfl
        | obj ps =>
            have hp : sizeP ps <= n := by simp [sizeT] at h; omega
            rw [show DeepNonNullableNNF (n+1) (.obj ps)
                = (DeepNonNullablePropsF n ps).map Ty.obj from rfl, ihP ps hp]
            rfl
        | orUndef t' =>
            have ht : sizeT t' <= n := by simp [sizeT] at h; omega
            rw [show DeepNonNullableNNF (n+1) (.orUndef t')
                = DeepNonNullableNNF n t' from rfl, ihNN t' ht]
            rfl
      · intro ps h
        cases ps with
        | nil => rfl
        | cons p ps' =>
            cases p with
            | mk nm o r t =>
                have h1 : sizeT t <= n := by simp [sizeP] at h; omega
                have h2 : sizeP ps' <= n := by simp [sizeP] at h; omega
                rw [show DeepNonNullablePropsF (n+1) (Property.mk nm o r t :: ps')
                    = (DeepNonNullableNNF n t).bind (fun t' =>
                        (DeepNonNullablePropsF n ps').bind (fun rest =>
                          some (.mk nm false r t' :: rest)))
                    from rfl, ihNN t h1, ihP ps' h2]
                rfl

theorem DeepPartialF_sufficient : ∀ n : Nat,
    (∀ t, sizeT t <= n → DeepPartialF n t = some (DeepPartial t)) ∧
    (∀ ps, sizeP ps <= n → DeepPartialPropsF n ps = some (DeepPartialProps ps)) := by
  intro n
  induction n with
  | zero =>
      constructor
      · intro t h
        exact absurd h (by have := sizeT_pos t; omega)
      · intro ps h
        exact absurd h (by have := sizeP_pos ps; omega)
  | succ n ih =>
      obtain ⟨ihT, ihP⟩ := ih
      constructor
      · intro t h
        cases t with
        | prim p => rfl
        | nullTy => rfl
        | undefTy => rfl
        | never => rfl
        | func => rfl
        | arr ro e =>
            have he : sizeT e <= n := by simp [sizeT] at h; omega
            rw [show DeepPartialF (n+1) (.arr ro e)
                = (DeepPartialF n e).map (Ty.arr ro) from rfl, ihT e he]
            rfl
        | obj ps =>
            have hp : sizeP ps <= n := by simp [sizeT] at h; omega
            rw [show DeepPartialF (n+1) (.obj ps)
                = (DeepPartialPropsF n ps).map Ty.obj from rfl, ihP ps hp]
            rfl
        | orUndef t' =>
            have ht : sizeT t' <= n := by simp [sizeT] at h; omega
            rw [show DeepPartialF (n+1) (.orUndef t')
                = (DeepPartialF n t').map orU from rfl, ihT t' ht]
            rfl
      · intro ps h
        cases ps with
        | nil => rfl
        | cons p ps' =>
            cases p with
            | mk nm o r t =>
                have h1 : sizeT t <= n := by simp [sizeP] at h; omega
                have h2 : sizeP ps' <= n := by simp [sizeP] at h; omega
                rw [show DeepPartialPropsF (n+1) (Property.mk nm o r t :: ps')
                    = (DeepPartialF n t).bind (fun t' =>
                        (DeepPartialPropsF n ps').bind (fun rest =>
                          some (.mk nm true r (if o then orU t' else t') :: rest)))
                    from rfl, ihT t h1, ihP ps' h2]
                rfl

/-! ## Idempotence of `DeepReadonly` (claim C10) -/

mutual
theorem DeepReadonly_idem : (t : Ty) → DeepReadonly (DeepReadonly t) = DeepReadonly t
  | .prim _ => rfl
  | .nullTy => rfl
  | .undefTy => rfl
  | .never => rfl
  | .func => rfl
  | .arr ro e =>
      congrArg (Ty.arr true) (DeepReadonly_idem e)
  | .obj ps =>
      congrArg Ty.obj (DeepReadonlyProps_idem ps)
  | .orUndef t => by
      show DeepReadonly (orU (DeepReadonly t)) = orU (DeepReadonly t)
      rw [DeepReadonly_orU, DeepReadonly_idem t]

theorem DeepReadonlyProps_idem :
    (ps : List Property) → DeepReadonlyProps (DeepReadonlyProps ps) = DeepReadonlyProps ps
  | [] => rfl
  | .mk n o r t :: ps => by
      cases o with
      | false =>
          show Property.mk n false true
              (DeepReadonly (DeepReadonly t)) :: DeepReadonlyProps (DeepReadonlyProps ps)
            = Property.mk n false true (DeepReadonly t) :: DeepReadonlyProps ps
          rw [DeepReadonly_idem t, DeepReadonlyProps_idem ps]
      | true =>
          show Property.mk n true true
              (orU (DeepReadonly (orU (DeepReadonly t))))
                :: DeepReadonlyProps (DeepReadonlyProps ps)
            = Property.mk n true true (orU (DeepReadonly t)) :: DeepReadonlyProps ps
          rw [DeepReadonly_orU, DeepReadonly_idem t, orU_orU, DeepReadonlyProps_idem ps]
end

/-! ## Structural equality: congruence machinery (claim C7)

Structural equality `structEq` compares canonical forms, i.e. it identifies
object types up to reordering of properties.  The claim-C7 theorems show the
utilities are pure functions of their arguments *up to structural
equality*: structurally equal inputs give structurally equal outputs. -/

/-- Canonicalisation of a single property. -/
def canonProp (p : Property) : Property :=
  .mk p.name p.opt p.ro (canonTy p.ty)

/-- The property transformation of `_DeepReadonlyObject`. -/
def DeepReadonlyProp (p : Property) : Property :=
  .mk p.name p.opt true
    (if p.opt then orU (DeepReadonly p.ty) else DeepReadonly p.ty)

theorem canonProps_eq_map : ∀ l : List Property, canonProps l = l.map canonProp
  | [] => rfl
  | .mk n o r t :: l => by
      rw [show canonProps (Property.mk n o r t :: l)
          = Property.mk n o r (canonTy t) :: canonProps l from rfl]
      rw [canonProps_eq_map l]
      rfl

theorem DeepReadonlyProps_eq_map :
    ∀ l : List Property, DeepReadonlyProps l = l.map DeepReadonlyProp
  | [] => rfl
  | .mk n o r t :: l => by
      rw [show DeepReadonlyProps (Property.mk n o r t :: l)
          = Property.mk n o true (if o then orU (DeepReadonly t) else DeepReadonly t)
              :: DeepReadonlyProps l from rfl]
      rw [DeepReadonlyProps_eq_map l]
      rfl

theorem keysOf_canonProps (l : List Property) : keysOf (canonProps l) = keysOf l := by
  rw [canonProps_eq_map, keysOf, keysOf, List.map_map]
  rfl

theorem lookup_canonProps (k : String) (l : List Property) :
    lookupProp k (canonProps l) = (lookupProp k l).map canonProp := by
  induction l with
  | nil => rfl
  | cons p l ih =>
      cases p with
      | mk n o r t =>
          rw [show canonProps (Property.mk n o r t :: l)
              = Property.mk n o r (canonTy t) :: canonProps l from rfl]
          rw [lookupProp, lookupProp]
          by_cases hn : n = k
          · rw [if_pos (show (Property.mk n o r (canonTy t)).name = k from hn),
              if_pos (show (Property.mk n o r t).name = k from hn)]
            rfl
          · rw [if_neg (show ¬ (Property.mk n o r (canonTy t)).name = k from hn),
              if_neg (show ¬ (Property.mk n o r t).name = k from hn)]
            exact ih

theorem lookup_eq_some_iff {l : List Property} (hnd : (keysOf l).Nodup)
    {k : String} {p : Property} :
    lookupProp k l = some p ↔ (p ∈ l ∧ p.name = k) := by
  induction l with
  | nil => simp [lookupProp]
  | cons q l ih =>
      rw [keysOf_cons] at hnd
      rw [lookupProp]
      by_cases hq : q.name = k
      · rw [if_pos hq]
        constructor
        · intro h
          cases h
          exact ⟨List.mem_cons_self _ _, hq⟩
        · rintro ⟨hm, hn⟩
          rcases List.mem_cons.mp hm with rfl | hm
          · rfl
          · exact absurd (hq ▸ hn ▸ List.mem_map_of_mem Property.name hm)
              (List.nodup_cons.mp hnd).1
      · rw [if_neg hq]
        rw [ih (List.nodup_cons.mp hnd).2]
        constructor
        · rintro ⟨hm, hn⟩
          exact ⟨List.mem_cons_of_mem _ hm, hn⟩
        · rintro ⟨hm, hn⟩
          rcases List.mem_cons.mp hm with rfl | hm
          · exact absurd hn hq
          · exact ⟨hm, hn⟩

theorem lookup_perm {l1 l2 : List Property} (hnd : (keysOf l1).Nodup)
    (hp : l1.Perm l2) (k : String) :
    lookupProp k l1 = lookupProp k l2 := by
  have hnd2 : (keysOf l2).Nodup := ((hp.map Property.name).nodup_iff).mp hnd
  cases h : lookupProp k l1 with
  | some p =>
      obtain ⟨hm, hn⟩ := (lookup_eq_some_iff hnd).mp h
      exact ((lookup_eq_some_iff hnd2).mpr ⟨hp.subset hm, hn⟩).symm
  | none =>
      have : k ∉ keysOf l2 := by
        intro hk
        exact lookupProp_eq_none.mp h ((hp.map Property.name).mem_iff.mpr hk)
      exact (lookupProp_eq_none.mpr this).symm

theorem sorted_nodup_keys_perm_eq : ∀ {l1 l2 : List Property},
    l1.Perm l2 → l1.Pairwise propLE → l2.Pairwise propLE →
    (keysOf l1).Nodup → l1 = l2 := by
  intro l1
  induction l1 with
  | nil =>
      intro l2 hperm _ _ _
      exact hperm.nil_eq
  | cons p l1' ih =>
      intro l2 hperm hs1 hs2 hnd
      cases l2 with
      | nil => exact absurd hperm.symm.nil_eq (by simp)
      | cons q l2' =>
          have hpq : p = q := by
            rcases List.mem_cons.mp (hperm.subset (List.mem_cons_self p l1')) with h | hp2
            · exact h
            rcases List.mem_cons.mp (hperm.symm.subset (List.mem_cons_self q l2')) with h | hq1
            · exact h.symm
            have h1 : propLE p q := List.rel_of_pairwise_cons hs1 hq1
            have h2 : propLE q p := List.rel_of_pairwise_cons hs2 hp2
            have hname : p.name = q.name := strLe_antisymm h1 h2
            have hnd2 : (keysOf (q :: l2')).Nodup :=
              ((hperm.map Property.name).nodup_iff).mp hnd
            rw [keysOf_cons] at hnd2
            exact absurd (hname ▸ List.mem_map_of_mem Property.name hp2)
              (List.nodup_cons.mp hnd2).1
          subst hpq
          rw [keysOf_cons] at hnd
          rw [ih hperm.cons_inv hs1.of_cons hs2.of_cons (List.nodup_cons.mp hnd).2]

theorem sortProps_perm (l : List Property) : (sortProps l).Perm l :=
  List.perm_insertionSort propLE l

theorem sortProps_sorted (l : List Property) : (sortProps l).Pairwise propLE :=
  List.sorted_insertionSort propLE l

/-- Two object types with distinct keys whose canonical properties resolve
every key identically have the same canonical form. -/
theorem canon_sorted_eq_of_lookup {A B : List Property}
    (hA : (keysOf A).Nodup) (hB : (keysOf B).Nodup)
    (h : ∀ k, lookupProp k (canonProps A) = lookupProp k (canonProps B)) :
    sortProps (canonProps A) = sortProps (canonProps B) := by
  have hcA : (keysOf (canonProps A)).Nodup := by rwa [keysOf_canonProps]
  have hcB : (keysOf (canonProps B)).Nodup := by rwa [keysOf_canonProps]
  have hperm : (canonProps A).Perm (canonProps B) := by
    rw [List.perm_ext_iff_of_nodup (hcA.of_map) (hcB.of_map)]
    intro p
    constructor
    · intro hm
      have hs := (lookup_eq_some_iff hcA).mpr ⟨hm, rfl⟩
      rw [h p.name] at hs
      exact ((lookup_eq_some_iff hcB).mp hs).1
    · intro hm
      have hs := (lookup_eq_some_iff hcB).mpr ⟨hm, rfl⟩
      rw [← h p.name] at hs
      exact ((lookup_eq_some_iff hcA).mp hs).1
  have : (sortProps (canonProps A)).Perm (sortProps (canonProps B)) :=
    ((sortProps_perm _).trans hperm).trans (sortProps_perm _).symm
  exact sorted_nodup_keys_perm_eq this (sortProps_sorted _) (sortProps_sorted _)
    (((sortProps_perm (canonProps A)).map Property.name).nodup_iff.mpr hcA)

theorem canon_orU (x : Ty) : canonTy (orU x) = orU (canonTy x) := by
  cases x <;> rfl

theorem orderedInsert_map_name (f : Property → Property)
    (hf : ∀ p, (f p).name = p.name) (a : Property) :
    ∀ l : List Property,
      (List.orderedInsert propLE a l).map f
        = List.orderedInsert propLE (f a) (l.map f)
  | [] => rfl
  | b :: l => by
      have hab : propLE (f a) (f b) ↔ propLE a b := by
        rw [propLE, propLE, hf, hf]
      by_cases h : propLE a b
      · simp only [List.orderedInsert, if_pos h, if_pos (hab.mpr h), List.map_cons]
      · simp only [List.orderedInsert, if_neg h, if_neg (fun hx => h (hab.mp hx)),
          List.map_cons, orderedInsert_map_name f hf a l]

theorem insertionSort_map_name (f : Property → Property)
    (hf : ∀ p, (f p).name = p.name) :
    ∀ l : List Property,
      (List.insertionSort propLE l).map f = List.insertionSort propLE (l.map f)
  | [] => rfl
  | a :: l => by
      simp only [List.insertionSort, List.map_cons]
      rw [orderedInsert_map_name f hf, insertionSort_map_name f hf l]

theorem DeepReadonlyProps_sortProps (l : List Property) :
    DeepReadonlyProps (sortProps l) = sortProps (DeepReadonlyProps l) := by
  rw [DeepReadonlyProps_eq_map, DeepReadonlyProps_eq_map, sortProps, sortProps,
    insertionSort_map_name DeepReadonlyProp (fun p => rfl)]

mutual
/-- `DeepReadonly` commutes with canonicalisation. -/
theorem canonTy_DeepReadonly :
    (t : Ty) → canonTy (DeepReadonly t) = DeepReadonly (canonTy t)
  | .prim _ => rfl
  | .nullTy => rfl
  | .undefTy => rfl
  | .never => rfl
  | .func => rfl
  | .arr ro e => by
      show Ty.arr true (canonTy (DeepReadonly e)) = Ty.arr true (DeepReadonly (canonTy e))
      rw [canonTy_DeepReadonly e]
  | .orUndef x => by
      show canonTy (orU (DeepReadonly x)) = DeepReadonly (Ty.orUndef (canonTy x))
      rw [canon_orU, canonTy_DeepReadonly x]
      rfl
  | .obj ps => by
      show Ty.obj (sortProps (canonProps (DeepReadonlyProps ps)))
        = Ty.obj (DeepReadonlyProps (sortProps (canonProps ps)))
      rw [canonProps_DeepReadonlyProps ps, DeepReadonlyProps_sortProps]

theorem canonProps_DeepReadonlyProps :
    (ps : List Property) → canonProps (DeepReadonlyProps ps) = DeepReadonlyProps (canonProps ps)
  | [] => rfl
  | .mk n o r t :: ps => by
      cases o with
      | false =>
          show Property.mk n false true (canonTy (DeepReadonly t))
              :: canonProps (DeepReadonlyProps ps)
            = Property.mk n false true (DeepReadonly (canonTy t))
              :: DeepReadonlyProps (canonProps ps)
          rw [canonTy_DeepReadonly t, canonProps_DeepReadonlyProps ps]
      | true =>
          show Property.mk n true true (canonTy (orU (DeepReadonly t)))
              :: canonProps (DeepReadonlyProps ps)
            = Property.mk n true true (orU (DeepReadonly (canonTy t)))
              :: DeepReadonlyProps (canonProps ps)
          rw [canon_orU, canonTy_DeepReadonly t, canonProps_DeepReadonlyProps ps]
end

/-- `DeepReadonly` maps structurally equal types to structurally equal
types. -/
theorem DeepReadonly_congr {t t' : Ty} (h : structEq t t') :
    structEq (DeepReadonly t) (DeepReadonly t') := by
  rw [structEq] at h ⊢
  rw [canonTy_DeepReadonly, canonTy_DeepReadonly, h]

theorem keysOf_Pick_self (L : List Property) : keysOf (Pick L (keysOf L)) = keysOf L := by
  rw [keysOf_Pick]
  apply List.filter_eq_self.mpr
  intro a ha
  exact decide_eq_true ha

theorem nodup_keys_Overwrite {T U : List Property}
    (hT : (keysOf T).Nodup) (hU : (keysOf U).Nodup) :
    (keysOf (Overwrite T U)).Nodup := by
  rw [Overwrite, keysOf_Pick_self, interObj, keysOf, List.map_append]
  have h1 : ((Diff T U).map Property.name).Nodup := by
    rw [show (Diff T U).map Property.name = keysOf (Diff T U) from rfl, Diff, keysOf_Pick]
    exact (hT.filter _).filter _
  have hI : (keysOf (Intersection U T)).Nodup := by
    rw [Intersection, keysOf_Pick]
    exact ((hU.filter _).filter _).filter _
  have h2 : (((Intersection U T).filter
      (fun q => decide (q.name ∉ keysOf (Diff T U)))).map Property.name).Nodup :=
    (((List.filter_sublist _).map Property.name).nodup hI)
  refine h1.append h2 ?_
  intro k hk1 hk2
  obtain ⟨q, hq, rfl⟩ := List.mem_map.mp hk2
  obtain ⟨hqI, hg⟩ := List.mem_filter.mp hq
  exact (of_decide_eq_true hg) hk1

/-- `Overwrite` maps structurally equal arguments (with, as in any object
type, distinct key names) to structurally equal results. -/
theorem Overwrite_congr {T T' U U' : List Property}
    (hT : (keysOf T).Nodup) (hT' : (keysOf T').Nodup)
    (hU : (keysOf U).Nodup) (hU' : (keysOf U').Nodup)
    (ht : structEq (.obj T) (.obj T')) (hu : structEq (.obj U) (.obj U')) :
    structEq (.obj (Overwrite T U)) (.obj (Overwrite T' U')) := by
  have hTs : sortProps (canonProps T) = sortProps (canonProps T') :=
    Ty.obj.inj (ht : Ty.obj (sortProps (canonProps T)) = Ty.obj (sortProps (canonProps T')))
  have hUs : sortProps (canonProps U) = sortProps (canonProps U') :=
    Ty.obj.inj (hu : Ty.obj (sortProps (canonProps U)) = Ty.obj (sortProps (canonProps U')))
  have hpT : (canonProps T).Perm (canonProps T') := by
    have h1 := sortProps_perm (canonProps T)
    rw [hTs] at h1
    exact h1.symm.trans (sortProps_perm (canonProps T'))
  have hpU : (canonProps U).Perm (canonProps U') := by
    have h1 := sortProps_perm (canonProps U)
    rw [hUs] at h1
    exact h1.symm.trans (sortProps_perm (canonProps U'))
  have hkT : ∀ k, k ∈ keysOf T ↔ k ∈ keysOf T' := by
    intro k
    rw [← keysOf_canonProps T, ← keysOf_canonProps T']
    exact (hpT.map Property.name).mem_iff
  have hkU : ∀ k, k ∈ keysOf U ↔ k ∈ keysOf U' := by
    intro k
    rw [← keysOf_canonProps U, ← keysOf_canonProps U']
    exact (hpU.map Property.name).mem_iff
  have hlT : ∀ k, lookupProp k (canonProps T) = lookupProp k (canonProps T') :=
    fun k => lookup_perm (by rwa [keysOf_canonProps]) hpT k
  have hlU : ∀ k, lookupProp k (canonProps U) = lookupProp k (canonProps U') :=
    fun k => lookup_perm (by rwa [keysOf_canonProps]) hpU k
  show Ty.obj (sortProps (canonProps (Overwrite T U)))
    = Ty.obj (sortProps (canonProps (Overwrite T' U')))
  refine congrArg Ty.obj (canon_sorted_eq_of_lookup
    (nodup_keys_Overwrite hT hU) (nodup_keys_Overwrite hT' hU') ?_)
  intro k
  rw [lookup_canonProps, lookup_canonProps, lookup_Overwrite, lookup_Overwrite]
  by_cases h1 : k ∈ keysOf T
  · rw [if_pos h1, if_pos ((hkT k).mp h1)]
    by_cases h2 : k ∈ keysOf U
    · rw [if_pos h2, if_pos ((hkU k).mp h2)]
      have hc := hlU k
      rw [lookup_canonProps, lookup_canonProps] at hc
      exact hc
    · rw [if_neg h2, if_neg (fun hx => h2 ((hkU k).mpr hx))]
      have hc := hlT k
      rw [lookup_canonProps, lookup_canonProps] at hc
      exact hc
  · rw [if_neg h1, if_neg (fun hx => h1 ((hkT k).mpr hx))]

/-! ## Congruence of the remaining utilities (claim C7)

Helpers unpacking `structEq` on object types, invariance of the member-type
tests under canonicalisation, and a generic congruence lemma for utilities
of the shape `Pick T K`. -/

theorem structEq_refl (t : Ty) : structEq t t := rfl

theorem structEq_obj_of_sorted {T T' : List Property}
    (h : sortProps (canonProps T) = sortProps (canonProps T')) :
    structEq (.obj T) (.obj T') :=
  show Ty.obj (sortProps (canonProps T)) = Ty.obj (sortProps (canonProps T')) from
    congrArg Ty.obj h

theorem structEq_obj_perm {T T' : List Property} (h : structEq (.obj T) (.obj T')) :
    (canonProps T).Perm (canonProps T') := by
  have hs : sortProps (canonProps T) = sortProps (canonProps T') :=
    Ty.obj.inj (h : Ty.obj (sortProps (canonProps T)) = Ty.obj (sortProps (canonProps T')))
  have h1 := sortProps_perm (canonProps T)
  rw [hs] at h1
  exact h1.symm.trans (sortProps_perm (canonProps T'))

theorem structEq_obj_keys {T T' : List Property} (h : structEq (.obj T) (.obj T'))
    (k : String) : k ∈ keysOf T ↔ k ∈ keysOf T' := by
  rw [← keysOf_canonProps T, ← keysOf_canonProps T']
  exact ((structEq_obj_perm h).map Property.name).mem_iff

theorem structEq_obj_lookup {T T' : List Property} (hT : (keysOf T).Nodup)
    (h : structEq (.obj T) (.obj T')) (k : String) :
    lookupProp k (canonProps T) = lookupProp k (canonProps T') :=
  lookup_perm (by rwa [keysOf_canonProps]) (structEq_obj_perm h) k

theorem extendsFunction_canon (t : Ty) : extendsFunction (canonTy t) = extendsFunction t := by
  cases t <;> rfl

theorem NonUndefined_canon : (t : Ty) → canonTy (NonUndefined t) = NonUndefined (canonTy t)
  | .prim _ => rfl
  | .nullTy => rfl
  | .undefTy => rfl
  | .never => rfl
  | .func => rfl
  | .arr _ _ => rfl
  | .obj _ => rfl
  | .orUndef x => by
      rw [show NonUndefined (Ty.orUndef x) = NonUndefined x from rfl,
        show canonTy (Ty.orUndef x) = Ty.orUndef (canonTy x) from rfl,
        show NonUndefined (Ty.orUndef (canonTy x)) = NonUndefined (canonTy x) from rfl]
      exact NonUndefined_canon x

theorem valTy_canonProp (p : Property) : valTy (canonProp p) = canonTy (valTy p) := by
  cases p with
  | mk n o r t =>
      cases o with
      | false => rfl
      | true =>
          show orU (canonTy t) = canonTy (orU t)
          rw [canon_orU]

/-- The `FunctionKeys` test depends only on the canonical form of the
property. -/
theorem predFK_canon (p : Property) :
    extendsFunction (NonUndefined (valTy p))
      = extendsFunction (NonUndefined (valTy (canonProp p))) := by
  rw [valTy_canonProp, ← NonUndefined_canon, extendsFunction_canon]

theorem keysOf_map_name (f : Property → Property)
    (hf : ∀ p, (f p).name = p.name) : ∀ l, keysOf (l.map f) = keysOf l
  | [] => rfl
  | p :: l => by
      rw [List.map_cons, keysOf_cons, keysOf_cons, hf, keysOf_map_name f hf l]

theorem lookup_map_name (f : Property → Property)
    (hf : ∀ p, (f p).name = p.name) (k : String) :
    ∀ l, lookupProp k (l.map f) = (lookupProp k l).map f
  | [] => rfl
  | p :: l => by
      rw [List.map_cons, lookupProp, lookupProp]
      by_cases hn : p.name = k
      · rw [if_pos (by rw [hf]; exact hn), if_pos hn]
        rfl
      · rw [if_neg (by rw [hf]; exact hn), if_neg hn, lookup_map_name f hf k l]

/-- Generic congruence for the key lists computed by the
`...Keys`/`...ByValue` utilities: when the kept/dropped decision depends
only on the canonical form of each property (via `pc`), structurally equal
object types produce key lists with the same members. -/
theorem keys_filter_congr (pc : Property → Bool) {pred pred' : Property → Bool}
    (h1 : ∀ p, pred p = pc (canonProp p)) (h2 : ∀ p, pred' p = pc (canonProp p))
    {T T' : List Property} (hperm : (canonProps T).Perm (canonProps T'))
    (k : String) :
    k ∈ (T.filter pred).map Property.name ↔ k ∈ (T'.filter pred').map Property.name := by
  have key : ∀ (pr : Property → Bool), (∀ p, pr p = pc (canonProp p)) →
      ∀ (L : List Property),
      (k ∈ (L.filter pr).map Property.name
        ↔ ∃ q, (q ∈ canonProps L ∧ pc q = true) ∧ q.name = k) := by
    intro pr hp L
    rw [canonProps_eq_map]
    simp only [List.mem_map, List.mem_filter]
    constructor
    · rintro ⟨p, ⟨hpL, hpp⟩, rfl⟩
      exact ⟨canonProp p, ⟨⟨p, hpL, rfl⟩, by rw [← hp]; exact hpp⟩, rfl⟩
    · rintro ⟨q, ⟨⟨p, hpL, rfl⟩, hq⟩, hname⟩
      exact ⟨p, ⟨hpL, by rw [hp]; exact hq⟩, hname⟩
  rw [key pred h1 T, key pred' h2 T']
  constructor
  · rintro ⟨q, ⟨hq, hpc⟩, hname⟩
    exact ⟨q, ⟨hperm.subset hq, hpc⟩, hname⟩
  · rintro ⟨q, ⟨hq, hpc⟩, hname⟩
    exact ⟨q, ⟨hperm.symm.subset hq, hpc⟩, hname⟩

/-- Generic congruence for utilities of the shape `Pick T K`: structurally
equal objects and key unions with the same members give structurally equal
results. -/
theorem Pick_congr {T T' : List Property} {K K' : List String}
    (hT : (keysOf T).Nodup) (hK : K.Nodup) (hK' : K'.Nodup)
    (ht : structEq (.obj T) (.obj T')) (hk : ∀ k, k ∈ K ↔ k ∈ K') :
    structEq (.obj (Pick T K)) (.obj (Pick T' K')) := by
  apply structEq_obj_of_sorted
  apply canon_sorted_eq_of_lookup
  · rw [keysOf_Pick]
    exact hK.filter _
  · rw [keysOf_Pick]
    exact hK'.filter _
  · intro k
    rw [lookup_canonProps, lookup_canonProps, lookup_Pick, lookup_Pick]
    by_cases h1 : k ∈ K
    · rw [if_pos h1, if_pos ((hk k).mp h1)]
      have hc := structEq_obj_lookup hT ht k
      rw [lookup_canonProps, lookup_canonProps] at hc
      exact hc
    · rw [if_neg h1, if_neg (fun hx => h1 ((hk k).mpr hx))]

theorem NonUndefined_congr {t t' : Ty} (h : structEq t t') :
    structEq (NonUndefined t) (NonUndefined t') := by
  rw [structEq] at h ⊢
  rw [NonUndefined_canon, NonUndefined_canon, h]

theorem FunctionKeys_congr {T T' : List Property} (h : structEq (.obj T) (.obj T'))
    (k : String) : k ∈ FunctionKeys T ↔ k ∈ FunctionKeys T' := by
  rw [FunctionKeys, FunctionKeys]
  exact keys_filter_congr (fun q => extendsFunction (NonUndefined (valTy q)))
    (fun p => predFK_canon p) (fun p => predFK_canon p) (structEq_obj_perm h) k

theorem NonFunctionKeys_congr {T T' : List Property} (h : structEq (.obj T) (.obj T'))
    (k : String) : k ∈ NonFunctionKeys T ↔ k ∈ NonFunctionKeys T' := by
  rw [NonFunctionKeys, NonFunctionKeys]
  exact keys_filter_congr (fun q => !extendsFunction (NonUndefined (valTy q)))
    (fun p => congrArg (!·) (predFK_canon p)) (fun p => congrArg (!·) (predFK_canon p))
    (structEq_obj_perm h) k

theorem WritableKeys_congr {T T' : List Property} (h : structEq (.obj T) (.obj T'))
    (k : String) : k ∈ WritableKeys T ↔ k ∈ WritableKeys T' := by
  rw [WritableKeys, WritableKeys]
  exact keys_filter_congr (fun q => !q.ro) (fun p => rfl) (fun p => rfl)
    (structEq_obj_perm h) k

theorem ReadonlyKeys_congr {T T' : List Property} (h : structEq (.obj T) (.obj T'))
    (k : String) : k ∈ ReadonlyKeys T ↔ k ∈ ReadonlyKeys T' := by
  rw [ReadonlyKeys, ReadonlyKeys]
  exact keys_filter_congr (fun q => q.ro) (fun p => rfl) (fun p => rfl)
    (structEq_obj_perm h) k

theorem RequiredKeys_congr {T T' : List Property} (h : structEq (.obj T) (.obj T'))
    (k : String) : k ∈ RequiredKeys T ↔ k ∈ RequiredKeys T' := by
  rw [RequiredKeys, RequiredKeys]
  exact keys_filter_congr (fun q => !q.opt) (fun p => rfl) (fun p => rfl)
    (structEq_obj_perm h) k

theorem OptionalKeys_congr {T T' : List Property} (h : structEq (.obj T) (.obj T'))
    (k : String) : k ∈ OptionalKeys T ↔ k ∈ OptionalKeys T' := by
  rw [OptionalKeys, OptionalKeys]
  exact keys_filter_congr (fun q => q.opt) (fun p => rfl) (fun p => rfl)
    (structEq_obj_perm h) k

theorem PickByValue_congr (ext : Ty → Ty → Bool)
    (hext : ∀ a b, ext a b = ext (canonTy a) (canonTy b))
    {T T' : List Property} {V V' : Ty}
    (hT : (keysOf T).Nodup) (hT' : (keysOf T').Nodup)
    (ht : structEq (.obj T) (.obj T')) (hv : structEq V V') :
    structEq (.obj (PickByValue ext T V)) (.obj (PickByValue ext T' V')) := by
  rw [PickByValue, PickByValue]
  refine Pick_congr hT (((List.filter_sublist _).map Property.name).nodup hT)
    (((List.filter_sublist _).map Property.name).nodup hT') ht ?_
  have h1 : ∀ p, ext (valTy p) V = ext (valTy (canonProp p)) (canonTy V) := by
    intro p
    rw [hext (valTy p) V, valTy_canonProp]
  have h2 : ∀ p, ext (valTy p) V' = ext (valTy (canonProp p)) (canonTy V) := by
    intro p
    rw [hext (valTy p) V', valTy_canonProp, ← (hv : canonTy V = canonTy V')]
  exact fun k => keys_filter_congr (fun q => ext (valTy q) (canonTy V)) h1 h2
    (structEq_obj_perm ht) k

theorem PickByValueExact_congr (ext : Ty → Ty → Bool)
    (hext : ∀ a b, ext a b = ext (canonTy a) (canonTy b))
    {T T' : List Property} {V V' : Ty}
    (hT : (keysOf T).Nodup) (hT' : (keysOf T').Nodup)
    (ht : structEq (.obj T) (.obj T')) (hv : structEq V V') :
    structEq (.obj (PickByValueExact ext T V)) (.obj (PickByValueExact ext T' V')) := by
  rw [PickByValueExact, PickByValueExact]
  refine Pick_congr hT (((List.filter_sublist _).map Property.name).nodup hT)
    (((List.filter_sublist _).map Property.name).nodup hT') ht ?_
  have h1 : ∀ p, (ext V (valTy p) && ext (valTy p) V)
      = (ext (canonTy V) (valTy (canonProp p)) && ext (valTy (canonProp p)) (canonTy V)) := by
    intro p
    rw [hext V (valTy p), hext (valTy p) V, valTy_canonProp]
  have h2 : ∀ p, (ext V' (valTy p) && ext (valTy p) V')
      = (ext (canonTy V) (valTy (canonProp p)) && ext (valTy (canonProp p)) (canonTy V)) := by
    intro p
    rw [hext V' (valTy p), hext (valTy p) V', valTy_canonProp,
      ← (hv : canonTy V = canonTy V')]
  exact fun k => keys_filter_congr
    (fun q => ext (canonTy V) (valTy q) && ext (valTy q) (canonTy V)) h1 h2
    (structEq_obj_perm ht) k

theorem OmitByValue_congr (ext : Ty → Ty → Bool)
    (hext : ∀ a b, ext a b = ext (canonTy a) (canonTy b))
    {T T' : List Property} {V V' : Ty}
    (hT : (keysOf T).Nodup) (hT' : (keysOf T').Nodup)
    (ht : structEq (.obj T) (.obj T')) (hv : structEq V V') :
    structEq (.obj (OmitByValue ext T V)) (.obj (OmitByValue ext T' V')) := by
  rw [OmitByValue, OmitByValue]
  refine Pick_congr hT (((List.filter_sublist _).map Property.name).nodup hT)
    (((List.filter_sublist _).map Property.name).nodup hT') ht ?_
  have h1 : ∀ p, (!ext (valTy p) V) = (!ext (valTy (canonProp p)) (canonTy V)) := by
    intro p
    rw [hext (valTy p) V, valTy_canonProp]
  have h2 : ∀ p, (!ext (valTy p) V') = (!ext (valTy (canonProp p)) (canonTy V)) := by
    intro p
    rw [hext (valTy p) V', valTy_canonProp, ← (hv : canonTy V = canonTy V')]
  exact fun k => keys_filter_congr (fun q => !ext (valTy q) (canonTy V)) h1 h2
    (structEq_obj_perm ht) k

theorem OmitByValueExact_congr (ext : Ty → Ty → Bool)
    (hext : ∀ a b, ext a b = ext (canonTy a) (canonTy b))
    {T T' : List Property} {V V' : Ty}
    (hT : (keysOf T).Nodup) (hT' : (keysOf T').Nodup)
    (ht : structEq (.obj T) (.obj T')) (hv : structEq V V') :
    structEq (.obj (OmitByValueExact ext T V)) (.obj (OmitByValueExact ext T' V')) := by
  rw [OmitByValueExact, OmitByValueExact]
  refine Pick_congr hT (((List.filter_sublist _).map Property.name).nodup hT)
    (((List.filter_sublist _).map Property.name).nodup hT') ht ?_
  have h1 : ∀ p, (!(ext V (valTy p) && ext (valTy p) V))
      = (!(ext (canonTy V) (valTy (canonProp p)) && ext (valTy (canonProp p)) (canonTy V))) := by
    intro p
    rw [hext V (valTy p), hext (valTy p) V, valTy_canonProp]
  have h2 : ∀ p, (!(ext V' (valTy p) && ext (valTy p) V'))
      = (!(ext (canonTy V) (valTy (canonProp p)) && ext (valTy (canonProp p)) (canonTy V))) := by
    intro p
    rw [hext V' (valTy p), hext (valTy p) V', valTy_canonProp,
      ← (hv : canonTy V = canonTy V')]
  exact fun k => keys_filter_congr
    (fun q => !(ext (canonTy V) (valTy q) && ext (valTy q) (canonTy V))) h1 h2
    (structEq_obj_perm ht) k

theorem Omit_congr {T T' : List Property} {K K' : List String}
    (hT : (keysOf T).Nodup) (hT' : (keysOf T').Nodup)
    (ht : structEq (.obj T) (.obj T')) (hk : ∀ k, k ∈ K ↔ k ∈ K') :
    structEq (.obj (Omit T K)) (.obj (Omit T' K')) := by
  rw [Omit, Omit]
  refine Pick_congr hT (hT.filter _) (hT'.filter _) ht ?_
  intro k
  simp only [SetDifference, List.mem_filter, decide_eq_true_eq]
  rw [structEq_obj_keys ht k]
  constructor
  · rintro ⟨a, b⟩
    exact ⟨a, fun hh => b ((hk k).mpr hh)⟩
  · rintro ⟨a, b⟩
    exact ⟨a, fun hh => b ((hk k).mp hh)⟩

theorem Diff_congr {T T' U U' : List Property}
    (hT : (keysOf T).Nodup) (hT' : (keysOf T').Nodup)
    (ht : structEq (.obj T) (.obj T')) (hu : structEq (.obj U) (.obj U')) :
    structEq (.obj (Diff T U)) (.obj (Diff T' U')) := by
  rw [Diff, Diff]
  refine Pick_congr hT (hT.filter _) (hT'.filter _) ht ?_
  intro k
  simp only [SetDifference, List.mem_filter, decide_eq_true_eq]
  rw [structEq_obj_keys ht k, structEq_obj_keys hu k]

theorem Subtract_congr {T T' T1 T1' : List Property}
    (hT : (keysOf T).Nodup) (hT' : (keysOf T').Nodup)
    (ht : structEq (.obj T) (.obj T')) (h1 : structEq (.obj T1) (.obj T1')) :
    structEq (.obj (Subtract T T1)) (.obj (Subtract T' T1')) := by
  rw [Subtract, Subtract, SetComplement, SetComplement]
  refine Pick_congr hT (hT.filter _) (hT'.filter _) ht ?_
  intro k
  simp only [SetDifference, List.mem_filter, decide_eq_true_eq]
  rw [structEq_obj_keys ht k, structEq_obj_keys h1 k]

theorem Intersection_congr {T T' U U' : List Property}
    (hT : (keysOf T).Nodup) (hT' : (keysOf T').Nodup)
    (ht : structEq (.obj T) (.obj T')) (hu : structEq (.obj U) (.obj U')) :
    structEq (.obj (Intersection T U)) (.obj (Intersection T' U')) := by
  rw [Intersection, Intersection]
  refine Pick_congr hT ((hT.filter _).filter _) ((hT'.filter _).filter _) ht ?_
  intro k
  simp only [SetIntersection, List.mem_filter, decide_eq_true_eq]
  rw [structEq_obj_keys ht k, structEq_obj_keys hu k]

theorem lookup_Assign (T U : List Property) (k : String) :
    lookupProp k (Assign T U)
      = if k ∈ keysOf U then lookupProp k U
        else if k ∈ keysOf T then lookupProp k T else none := by
  have hI1 : lookupProp k (interObj (Diff T U) (Intersection U T))
      = if k ∈ keysOf T then
          (if k ∈ keysOf U then lookupProp k U else lookupProp k T)
        else none := by
    have h := lookup_Overwrite T U k
    rw [Overwrite, lookup_Pick] at h
    by_cases hk : k ∈ keysOf (interObj (Diff T U) (Intersection U T))
    · rwa [if_pos hk] at h
    · rw [if_neg hk] at h
      rw [lookupProp_eq_none.mpr hk]
      exact h
  have hI2 : lookupProp k (interObj (interObj (Diff T U) (Intersection U T)) (Diff U T))
      = if k ∈ keysOf U then lookupProp k U
        else if k ∈ keysOf T then lookupProp k T else none := by
    by_cases hT : k ∈ keysOf T <;> by_cases hU : k ∈ keysOf U
    · obtain ⟨p, hp⟩ := mem_keysOf_iff_lookup.mp hU
      have hs : lookupProp k (interObj (Diff T U) (Intersection U T)) = some p := by
        rw [hI1, if_pos hT, if_pos hU]
        exact hp
      rw [lookup_interObj_left _ hs, if_pos hU, hp]
    · obtain ⟨p, hp⟩ := mem_keysOf_iff_lookup.mp hT
      have hs : lookupProp k (interObj (Diff T U) (Intersection U T)) = some p := by
        rw [hI1, if_pos hT, if_neg hU]
        exact hp
      rw [lookup_interObj_left _ hs, if_neg hU, if_pos hT, hp]
    · have hnone : lookupProp k (interObj (Diff T U) (Intersection U T)) = none := by
        rw [hI1, if_neg hT]
      rw [lookup_interObj_right _ hnone, lookup_Diff, if_neg hT, if_pos hU]
    · have hnone : lookupProp k (interObj (Diff T U) (Intersection U T)) = none := by
        rw [hI1, if_neg hT]
      rw [lookup_interObj_right _ hnone, lookup_Diff, if_neg hT, if_neg hU, if_neg hT]
      exact lookupProp_eq_none.mpr hU
  rw [Assign, lookup_Pick]
  by_cases hk : k ∈ keysOf (interObj (interObj (Diff T U) (Intersection U T)) (Diff U T))
  · rw [if_pos hk]
    exact hI2
  · rw [if_neg hk]
    rw [lookupProp_eq_none.mpr hk] at hI2
    exact hI2

theorem nodup_keys_Assign {T U : List Property}
    (hT : (keysOf T).Nodup) (hU : (keysOf U).Nodup) :
    (keysOf (Assign T U)).Nodup := by
  rw [Assign, keysOf_Pick_self]
  rw [show interObj (interObj (Diff T U) (Intersection U T)) (Diff U T)
      = interObj (Diff T U) (Intersection U T)
        ++ (Diff U T).filter
            (fun q => decide (q.name ∉ keysOf (interObj (Diff T U) (Intersection U T))))
      from rfl]
  rw [keysOf, List.map_append]
  have h1 : ((interObj (Diff T U) (Intersection U T)).map Property.name).Nodup := by
    have h := nodup_keys_Overwrite hT hU
    rwa [Overwrite, keysOf_Pick_self] at h
  have hD : (keysOf (Diff U T)).Nodup := by
    rw [Diff, keysOf_Pick]
    exact (hU.filter _).filter _
  have h2 : (((Diff U T).filter
      (fun q => decide (q.name ∉ keysOf (interObj (Diff T U) (Intersection U T))))).map
        Property.name).Nodup :=
    ((List.filter_sublist _).map Property.name).nodup hD
  refine h1.append h2 ?_
  intro k hk1 hk2
  obtain ⟨q, hq, rfl⟩ := List.mem_map.mp hk2
  obtain ⟨hqI, hg⟩ := List.mem_filter.mp hq
  exact (of_decide_eq_true hg) hk1

/-- `Assign` maps structurally equal arguments (with distinct key names) to
structurally equal results. -/
theorem Assign_congr {T T' U U' : List Property}
    (hT : (keysOf T).Nodup) (hT' : (keysOf T').Nodup)
    (hU : (keysOf U).Nodup) (hU' : (keysOf U').Nodup)
    (ht : structEq (.obj T) (.obj T')) (hu : structEq (.obj U) (.obj U')) :
    structEq (.obj (Assign T U)) (.obj (Assign T' U')) := by
  apply structEq_obj_of_sorted
  apply canon_sorted_eq_of_lookup (nodup_keys_Assign hT hU) (nodup_keys_Assign hT' hU')
  intro k
  rw [lookup_canonProps, lookup_canonProps, lookup_Assign, lookup_Assign]
  by_cases h1 : k ∈ keysOf U
  · rw [if_pos h1, if_pos ((structEq_obj_keys hu k).mp h1)]
    have hc := structEq_obj_lookup hU hu k
    rw [lookup_canonProps, lookup_canonProps] at hc
    exact hc
  · rw [if_neg h1, if_neg (fun hx => h1 ((structEq_obj_keys hu k).mpr hx))]
    by_cases h2 : k ∈ keysOf T
    · rw [if_pos h2, if_pos ((structEq_obj_keys ht k).mp h2)]
      have hc := structEq_obj_lookup hT ht k
      rw [lookup_canonProps, lookup_canonProps] at hc
      exact hc
    · rw [if_neg h2, if_neg (fun hx => h2 ((structEq_obj_keys ht k).mpr hx))]

theorem lookup_Optional (T : List Property) (K : List String) (k : String) :
    lookupProp k (Optional T K)
      = if k ∈ keysOf T then
          (if k ∈ K then (lookupProp k T).map partialProp else lookupProp k T)
        else none := by
  rw [Optional]
  by_cases hT : k ∈ keysOf T <;> by_cases hK : k ∈ K
  · have ho : lookupProp k (Omit T K) = none := by
      rw [Omit, lookup_Pick_SetDifference, if_pos hK]
    rw [lookup_interObj_right _ ho, PartialObj,
      lookup_map_name partialProp (fun p => rfl), lookup_Pick, if_pos hK,
      if_pos hT, if_pos hK]
  · obtain ⟨p, hp⟩ := mem_keysOf_iff_lookup.mp hT
    have ho : lookupProp k (Omit T K) = some p := by
      rw [Omit, lookup_Pick_SetDifference, if_neg hK]
      exact hp
    rw [lookup_interObj_left _ ho, if_pos hT, if_neg hK, hp]
  · have ho : lookupProp k (Omit T K) = none := by
      rw [Omit, lookup_Pick_SetDifference, if_pos hK]
    rw [lookup_interObj_right _ ho, PartialObj,
      lookup_map_name partialProp (fun p => rfl), lookup_Pick, if_pos hK,
      lookupProp_eq_none.mpr hT, if_neg hT]
    rfl
  · have ho : lookupProp k (Omit T K) = none := by
      rw [Omit, lookup_Pick_SetDifference, if_neg hK]
      exact lookupProp_eq_none.mpr hT
    rw [lookup_interObj_right _ ho, PartialObj,
      lookup_map_name partialProp (fun p => rfl), lookup_Pick, if_neg hK, if_neg hT]
    rfl

theorem nodup_keys_Optional {T : List Property} {K : List String}
    (hT : (keysOf T).Nodup) (hK : K.Nodup) :
    (keysOf (Optional T K)).Nodup := by
  rw [Optional]
  rw [show interObj (Omit T K) (PartialObj (Pick T K))
      = Omit T K
        ++ (PartialObj (Pick T K)).filter
            (fun q => decide (q.name ∉ keysOf (Omit T K)))
      from rfl]
  rw [keysOf, List.map_append]
  have h1 : ((Omit T K).map Property.name).Nodup := by
    rw [show (Omit T K).map Property.name = keysOf (Omit T K) from rfl, Omit, keysOf_Pick]
    exact (hT.filter _).filter _
  have hP : (keysOf (PartialObj (Pick T K))).Nodup := by
    rw [PartialObj, keysOf_map_name partialProp (fun p => rfl), keysOf_Pick]
    exact hK.filter _
  have h2 : (((PartialObj (Pick T K)).filter
      (fun q => decide (q.name ∉ keysOf (Omit T K)))).map Property.name).Nodup :=
    ((List.filter_sublist _).map Property.name).nodup hP
  refine h1.append h2 ?_
  intro k hk1 hk2
  obtain ⟨q, hq, rfl⟩ := List.mem_map.mp hk2
  obtain ⟨hqI, hg⟩ := List.mem_filter.mp hq
  exact (of_decide_eq_true hg) hk1

theorem map_partialProp_canon {x y : Option Property}
    (h : x.map canonProp = y.map canonProp) :
    (x.map partialProp).map canonProp = (y.map partialProp).map canonProp := by
  cases x with
  | none =>
      cases y with
      | none => rfl
      | some q => simp at h
  | some p =>
      cases y with
      | none => simp at h
      | some q =>
          have h' : canonProp p = canonProp q := Option.some.inj h
          show some (canonProp (partialProp p)) = some (canonProp (partialProp q))
          rw [show canonProp (partialProp p) = partialProp (canonProp p) from rfl,
            show canonProp (partialProp q) = partialProp (canonProp q) from rfl, h']

/-- `Optional` maps structurally equal arguments to structurally equal
results. -/
theorem Optional_congr {T T' : List Property} {K K' : List String}
    (hT : (keysOf T).Nodup) (hT' : (keysOf T').Nodup)
    (hK : K.Nodup) (hK' : K'.Nodup)
    (ht : structEq (.obj T) (.obj T')) (hk : ∀ k, k ∈ K ↔ k ∈ K') :
    structEq (.obj (Optional T K)) (.obj (Optional T' K')) := by
  apply structEq_obj_of_sorted
  apply canon_sorted_eq_of_lookup (nodup_keys_Optional hT hK) (nodup_keys_Optional hT' hK')
  intro k
  rw [lookup_canonProps, lookup_canonProps, lookup_Optional, lookup_Optional]
  have hc := structEq_obj_lookup hT ht k
  rw [lookup_canonProps, lookup_canonProps] at hc
  by_cases h1 : k ∈ keysOf T
  · rw [if_pos h1, if_pos ((structEq_obj_keys ht k).mp h1)]
    by_cases h2 : k ∈ K
    · rw [if_pos h2, if_pos ((hk k).mp h2)]
      exact map_partialProp_canon hc
    · rw [if_neg h2, if_neg (fun hx => h2 ((hk k).mpr hx))]
      exact hc
  · rw [if_neg h1, if_neg (fun hx => h1 ((structEq_obj_keys ht k).mpr hx))]

/-- The property transformation of `_DeepRequiredObject`. -/
def DeepRequiredProp (p : Property) : Property :=
  .mk p.name false p.ro (DeepRequiredNU p.ty)

theorem DeepRequiredProps_eq_map :
    ∀ l : List Property, DeepRequiredProps l = l.map DeepRequiredProp
  | [] => rfl
  | .mk n o r t :: l => by
      rw [show DeepRequiredProps (Property.mk n o r t :: l)
          = Property.mk n false r (DeepRequiredNU t) :: DeepRequiredProps l from rfl,
        DeepRequiredProps_eq_map l]
      rfl

theorem DeepRequiredProps_sortProps (l : List Property) :
    DeepRequiredProps (sortProps l) = sortProps (DeepRequiredProps l) := by
  rw [DeepRequiredProps_eq_map, DeepRequiredProps_eq_map, sortProps, sortProps,
    insertionSort_map_name DeepRequiredProp (fun p => rfl)]

mutual
theorem canonTy_DeepRequired :
    (t : Ty) → canonTy (DeepRequired t) = DeepRequired (canonTy t)
  | .prim _ => rfl
  | .nullTy => rfl
  | .undefTy => rfl
  | .never => rfl
  | .func => rfl
  | .arr ro e => by
      show Ty.arr ro (canonTy (DeepRequiredNU e)) = Ty.arr ro (DeepRequiredNU (canonTy e))
      rw [canonTy_DeepRequiredNU e]
  | .orUndef x => by
      show canonTy (orU (DeepRequired x)) = DeepRequired (Ty.orUndef (canonTy x))
      rw [canon_orU, canonTy_DeepRequired x]
      rfl
  | .obj ps => by
      show Ty.obj (sortProps (canonProps (DeepRequiredProps ps)))
        = Ty.obj (DeepRequiredProps (sortProps (canonProps ps)))
      rw [canonProps_DeepRequiredProps ps, DeepRequiredProps_sortProps]

theorem canonTy_DeepRequiredNU :
    (t : Ty) → canonTy (DeepRequiredNU t) = DeepRequiredNU (canonTy t)
  | .prim _ => rfl
  | .nullTy => rfl
  | .undefTy => rfl
  | .never => rfl
  | .func => rfl
  | .arr ro e => by
      show Ty.arr ro (canonTy (DeepRequiredNU e)) = Ty.arr ro (DeepRequiredNU (canonTy e))
      rw [canonTy_DeepRequiredNU e]
  | .orUndef x => by
      show canonTy (DeepRequiredNU x) = DeepRequiredNU (Ty.orUndef (canonTy x))
      rw [canonTy_DeepRequiredNU x]
      rfl
  | .obj ps => by
      show Ty.obj (sortProps (canonProps (DeepRequiredProps ps)))
        = Ty.obj (DeepRequiredProps (sortProps (canonProps ps)))
      rw [canonProps_DeepRequiredProps ps, DeepRequiredProps_sortProps]

theorem canonProps_DeepRequiredProps :
    (ps : List Property) →
      canonProps (DeepRequiredProps ps) = DeepRequiredProps (canonProps ps)
  | [] => rfl
  | .mk n o r t :: ps => by
      show Property.mk n false r (canonTy (DeepRequiredNU t))
          :: canonProps (DeepRequiredProps ps)
        = Property.mk n false r (DeepRequiredNU (canonTy t))
          :: DeepRequiredProps (canonProps ps)
      rw [canonTy_DeepRequiredNU t, canonProps_DeepRequiredProps ps]
end

theorem DeepRequired_congr {t t' : Ty} (h : structEq t t') :
    structEq (DeepRequired t) (DeepRequired t') := by
  rw [structEq] at h ⊢
  rw [canonTy_DeepRequired, canonTy_DeepRequired, h]

/-- The property transformation of `_DeepNonNullableObject`. -/
def DeepNonNullableProp (p : Property) : Property :=
  .mk p.name false p.ro (DeepNonNullableNN p.ty)

theorem DeepNonNullableProps_eq_map :
    ∀ l : List Property, DeepNonNullableProps l = l.map DeepNonNullableProp
  | [] => rfl
  | .mk n o r t :: l => by
      rw [show DeepNonNullableProps (Property.mk n o r t :: l)
          = Property.mk n false r (DeepNonNullableNN t) :: DeepNonNullableProps l from rfl,
        DeepNonNullableProps_eq_map l]
      rfl

theorem DeepNonNullableProps_sortProps (l : List Property) :
    DeepNonNullableProps (sortProps l) = sortProps (DeepNonNullableProps l) := by
  rw [DeepNonNullableProps_eq_map, DeepNonNullableProps_eq_map, sortProps, sortProps,
    insertionSort_map_name DeepNonNullableProp (fun p => rfl)]

mutual
theorem canonTy_DeepNonNullable :
    (t : Ty) → canonTy (DeepNonNullable t) = DeepNonNullable (canonTy t)
  | .prim _ => rfl
  | .nullTy => rfl
  | .undefTy => rfl
  | .never => rfl
  | .func => rfl
  | .arr ro e => by
      show Ty.arr ro (canonTy (DeepNonNullableNN e))
        = Ty.arr ro (DeepNonNullableNN (canonTy e))
      rw [canonTy_DeepNonNullableNN e]
  | .orUndef x => by
      show canonTy (orU (DeepNonNullable x)) = DeepNonNullable (Ty.orUndef (canonTy x))
      rw [canon_orU, canonTy_DeepNonNullable x]
      rfl
  | .obj ps => by
      show Ty.obj (sortProps (canonProps (DeepNonNullableProps ps)))
        = Ty.obj (DeepNonNullableProps (sortProps (canonProps ps)))
      rw [canonProps_DeepNonNullableProps ps, DeepNonNullableProps_sortProps]

theorem canonTy_DeepNonNullableNN :
    (t : Ty) → canonTy (DeepNonNullableNN t) = DeepNonNullableNN (canonTy t)
  | .prim _ => rfl
  | .nullTy => rfl
  | .undefTy => rfl
  | .never => rfl
  | .func => rfl
  | .arr ro e => by
      show Ty.arr ro (canonTy (DeepNonNullableNN e))
        = Ty.arr ro (DeepNonNullableNN (canonTy e))
      rw [canonTy_DeepNonNullableNN e]
  | .orUndef x => by
      show canonTy (DeepNonNullableNN x) = DeepNonNullableNN (Ty.orUndef (canonTy x))
      rw [canonTy_DeepNonNullableNN x]
      rfl
  | .obj ps => by
      show Ty.obj (sortProps (canonProps (DeepNonNullableProps ps)))
        = Ty.obj (DeepNonNullableProps (sortProps (canonProps ps)))
      rw [canonProps_DeepNonNullableProps ps, DeepNonNullableProps_sortProps]

theorem canonProps_DeepNonNullableProps :
    (ps : List Property) →
      canonProps (DeepNonNullableProps ps) = DeepNonNullableProps (canonProps ps)
  | [] => rfl
  | .mk n o r t :: ps => by
      show Property.mk n false r (canonTy (DeepNonNullableNN t))
          :: canonProps (DeepNonNullableProps ps)
        = Property.mk n false r (DeepNonNullableNN (canonTy t))
          :: DeepNonNullableProps (canonProps ps)
      rw [canonTy_DeepNonNullableNN t, canonProps_DeepNonNullableProps ps]
end

theorem DeepNonNullable_congr {t t' : Ty} (h : structEq t t') :
    structEq (DeepNonNullable t) (DeepNonNullable t') := by
  rw [structEq] at h ⊢
  rw [canonTy_DeepNonNullable, canonTy_DeepNonNullable, h]

/-- The property transformation of `_DeepPartialObject`. -/
def DeepPartialProp (p : Property) : Property :=
  .mk p.name true p.ro
    (if p.opt then orU (DeepPartial p.ty) else DeepPartial p.ty)

theorem DeepPartialProps_eq_map :
    ∀ l : List Property, DeepPartialProps l = l.map DeepPartialProp
  | [] => rfl
  | .mk n o r t :: l => by
      rw [show DeepPartialProps (Property.mk n o r t :: l)
          = Property.mk n true r (if o then orU (DeepPartial t) else DeepPartial t)
              :: DeepPartialProps l from rfl,
        DeepPartialProps_eq_map l]
      rfl

theorem DeepPartialProps_sortProps (l : List Property) :
    DeepPartialProps (sortProps l) = sortProps (DeepPartialProps l) := by
  rw [DeepPartialProps_eq_map, DeepPartialProps_eq_map, sortProps, sortProps,
    insertionSort_map_name DeepPartialProp (fun p => rfl)]

mutual
theorem canonTy_DeepPartial :
    (t : Ty) → canonTy (DeepPartial t) = DeepPartial (canonTy t)
  | .prim _ => rfl
  | .nullTy => rfl
  | .undefTy => rfl
  | .never => rfl
  | .func => rfl
  | .arr ro e => by
      show Ty.arr ro (canonTy (DeepPartial e)) = Ty.arr ro (DeepPartial (canonTy e))
      rw [canonTy_DeepPartial e]
  | .orUndef x => by
      show canonTy (orU (DeepPartial x)) = DeepPartial (Ty.orUndef (canonTy x))
      rw [canon_orU, canonTy_DeepPartial x]
      rfl
  | .obj ps => by
      show Ty.obj (sortProps (canonProps (DeepPartialProps ps)))
        = Ty.obj (DeepPartialProps (sortProps (canonProps ps)))
      rw [canonProps_DeepPartialProps ps, DeepPartialProps_sortProps]

theorem canonProps_DeepPartialProps :
    (ps : List Property) →
      canonProps (DeepPartialProps ps) = DeepPartialProps (canonProps ps)
  | [] => rfl
  | .mk n o r t :: ps => by
      cases o with
      | false =>
          show Property.mk n true r (canonTy (DeepPartial t))
              :: canonProps (DeepPartialProps ps)
            = Property.mk n true r (DeepPartial (canonTy t))
              :: DeepPartialProps (canonProps ps)
          rw [canonTy_DeepPartial t, canonProps_DeepPartialProps ps]
      | true =>
          show Property.mk n true r (canonTy (orU (DeepPartial t)))
              :: canonProps (DeepPartialProps ps)
            = Property.mk n true r (orU (DeepPartial (canonTy t)))
              :: DeepPartialProps (canonProps ps)
          rw [canon_orU, canonTy_DeepPartial t, canonProps_DeepPartialProps ps]
end

theorem DeepPartial_congr {t t' : Ty} (h : structEq t t') :
    structEq (DeepPartial t) (DeepPartial t') := by
  rw [structEq] at h ⊢
  rw [canonTy_DeepPartial, canonTy_DeepPartial, h]

/-- Structural equality on the `PromiseType` grammar: `Promise<A>` and
`Promise<B>` are structurally equal when `A` and `B` are, and non-`Promise`
types are compared by `structEq`. -/
def structEqP : PTy → PTy → Prop
  | .promise a, .promise b => structEqP a b
  | .base a, .base b => structEq a b
  | _, _ => False

theorem PromiseType_congr :
    ∀ {t t' : PTy}, structEqP t t' → structEqP (PromiseType t) (PromiseType t')
  | .promise _, .promise _, h => h
  | .base _, .base _, _ => structEq_refl Ty.never
  | .promise _, .base _, h => h.elim
  | .base _, .promise _, h => h.elim

/-- `Unionize` on structurally equal object types gives unions with the same
members up to structural equality (canonical forms of the member lists are
permutations of each other). -/
theorem Unionize_congr {T T' : List Property} (h : structEq (.obj T) (.obj T')) :
    ((Unionize T).map canonTy).Perm ((Unionize T').map canonTy) := by
  have key : ∀ L : List Property, (Unionize L).map canonTy
      = (canonProps L).map
          (fun q => Ty.obj [Property.mk q.name false false (valTy q)]) := by
    intro L
    induction L with
    | nil => rfl
    | cons p L ih =>
        rw [show Unionize (p :: L)
            = Ty.obj [Property.mk p.name false false (valTy p)] :: Unionize L from rfl,
          List.map_cons,
          show canonProps (p :: L) = canonProp p :: canonProps L from
            (by rw [canonProps_eq_map, List.map_cons, ← canonProps_eq_map]),
          List.map_cons, ih]
        have hhead : canonTy (Ty.obj [Property.mk p.name false false (valTy p)])
            = Ty.obj [Property.mk (canonProp p).name false false (valTy (canonProp p))] := by
          rw [valTy_canonProp]
          rfl
        rw [hhead]
  rw [key T, key T']
  exact (structEq_obj_perm h).map _

/-- Structural equality of an unevaluated intersection `A & B` (as produced
by `Brand`): componentwise. -/
def structEqI (a b : Ty × Ty) : Prop := structEq a.1 b.1 ∧ structEq a.2 b.2

theorem Brand_congr {t t' u u' : Ty} (h1 : structEq t t') (h2 : structEq u u') :
    structEqI (Brand t u) (Brand t' u') := by
  refine ⟨h1, ?_⟩
  show Ty.obj [Property.mk "__brand" false false (canonTy u)]
    = Ty.obj [Property.mk "__brand" false false (canonTy u')]
  rw [(h2 : canonTy u = canonTy u')]

/-- Structural equality of an `Exact` result: the object parts are
structurally equal and the `keyof` brand unions have the same members. -/
def structEqExact (a b : List Property × List String) : Prop :=
  structEq (.obj a.1) (.obj b.1) ∧ ∀ k, k ∈ a.2 ↔ k ∈ b.2

theorem Exact_congr {T T' : List Property} (h : structEq (.obj T) (.obj T')) :
    structEqExact (Exact T) (Exact T') :=
  ⟨h, structEq_obj_keys h⟩

/-! ## Concrete inputs used by the claims -/

/-- `Props = {name: string; age: number; visible: boolean}` of the
`Assign`/`Overwrite` documentation examples. -/
def assignProps : List Property :=
  [.mk "name" false false (.prim .str), .mk "age" false false (.prim .num),
   .mk "visible" false false (.prim .bool)]

/-- `NewProps = {age: string; other: string}` of the `Assign` documentation
example. -/
def assignNewProps : List Property :=
  [.mk "age" false false (.prim .str), .mk "other" false false (.prim .str)]

/-- The expected result type written in the `Assign` documentation:
`{name: string; age: number; visible: boolean; other: string}`. -/
def assignDocExpected : List Property :=
  [.mk "name" false false (.prim .str), .mk "age" false false (.prim .num),
   .mk "visible" false false (.prim .bool), .mk "other" false false (.prim .str)]

/-- A property `someUndef: undefined` (a required property whose declared
type is the `undefined` type). -/
def undefProp : Property := .mk "someUndef" false false .undefTy

/-- The `MixedProps` object type of the `FunctionKeys` documentation
example:
`{name: string; setName: (name: string) => void; someKeys?: string; someFn?: (...args: any) => any}`. -/
def mixedProps : List Property :=
  [.mk "name" false false (.prim .str), .mk "setName" false false .func,
   .mk "someKeys" true false (.prim .str), .mk "someFn" true false .func]

theorem lookupProp_mem {k : String} {T : List Property} {p : Property}
    (h : lookupProp k T = some p) : p ∈ T := by
  induction T with
  | nil => simp [lookupProp] at h
  | cons q T ih =>
      rw [lookupProp] at h
      split at h
      · cases h
        exact List.mem_cons_self _ _
      · exact List.mem_cons_of_mem q (ih h)

/-! ## Claim theorems -/

/-- C3: for every pair of union types `A` and `B`,
`SymmetricDifference<A, B> = SetDifference<A | B, A & B>` equals the
set-theoretic symmetric difference of the two unions: a member belongs to it
iff it belongs to `A` but not to `B`, or to `B` but not to `A`. -/
theorem claim_C3_symmetricDifference (A B : List α) (x : α) :
    x ∈ SymmetricDifference A B ↔ (x ∈ A ∧ x ∉ B) ∨ (x ∈ B ∧ x ∉ A) := by
  simp only [SymmetricDifference, SetDifference, SetIntersection, List.mem_filter,
    List.mem_append, decide_eq_true_eq, decide_not, Bool.not_eq_true', decide_eq_false_iff_not]
  tauto

/-- C4: `SetIntersection` and `SetDifference` distribute over unions in
their first argument, and consequently compute exactly the set intersection
and the set difference of the member sets of the two union types. -/
theorem claim_C4_setIntersection_setDifference :
    (∀ (A1 A2 B : List α),
        SetIntersection (A1 ++ A2) B = SetIntersection A1 B ++ SetIntersection A2 B) ∧
    (∀ (A1 A2 B : List α),
        SetDifference (A1 ++ A2) B = SetDifference A1 B ++ SetDifference A2 B) ∧
    (∀ (A B : List α) (x : α), x ∈ SetIntersection A B ↔ x ∈ A ∧ x ∈ B) ∧
    (∀ (A B : List α) (x : α), x ∈ SetDifference A B ↔ x ∈ A ∧ x ∉ B) := by
  refine ⟨?_, ?_, ?_, ?_⟩
  · intro A1 A2 B
    simp [SetIntersection, List.filter_append]
  · intro A1 A2 B
    simp [SetDifference, List.filter_append]
  · intro A B x
    simp [SetIntersection, List.mem_filter]
  · intro A B x
    simp [SetDifference, List.mem_filter]

/-- C5: for every type satisfying the declared constraint
`T extends Promise<any>`, `PromiseType<T>` is produced by the inferred
branch (`T` is `Promise<U>` and the result is that `U`), so the `never`
fallback arm is unreachable; and `PromiseType<Promise<U>> = U` for every
`U`. -/
theorem claim_C5_promiseType :
    (∀ t : PTy, extendsPromiseAny t = true →
        ∃ u, t = PTy.promise u ∧ PromiseType t = u) ∧
    (∀ u : PTy, PromiseType (PTy.promise u) = u) := by
  constructor
  · intro t h
    cases t with
    | promise u => exact ⟨u, rfl, rfl⟩
    | base b => simp [extendsPromiseAny] at h
  · intro u
    rfl

/-- Witness for C5 at the concrete input `Promise<string>`. -/
theorem claim_C5_promiseType_witness :
    (∃ u, PTy.promise (PTy.base (Ty.prim .str)) = PTy.promise u ∧
        PromiseType (PTy.promise (PTy.base (Ty.prim .str))) = u) ∧
    PromiseType (PTy.promise (PTy.base (Ty.prim .num))) = PTy.base (Ty.prim .num) :=
  ⟨claim_C5_promiseType.1 (PTy.promise (PTy.base (Ty.prim .str))) rfl,
   claim_C5_promiseType.2 (PTy.base (Ty.prim .num))⟩

/-- C6: `Omit<T, K>` contains exactly the properties of `T` whose keys are
not members of `K`, with value type (and modifiers) unchanged: resolving a
key `k` in `Omit<T, K>` gives nothing when `k ∈ K` and exactly what `T`
gives otherwise. -/
theorem claim_C6_omit (T : List Property) (K : List String) (k : String) :
    lookupProp k (Omit T K) = if k ∈ K then none else lookupProp k T := by
  rw [Omit]
  exact lookup_Pick_SetDifference T K k

/-- C9: `Overwrite<T, U>` has exactly the keys of `T`; keys of `T` not in
`U` keep the property of `T` unchanged, keys shared with `U` take the
property of `U`, and keys only in `U` are not added. -/
theorem claim_C9_overwrite (T U : List Property) (k : String) :
    lookupProp k (Overwrite T U)
      = (if k ∈ keysOf T then
          (if k ∈ keysOf U then lookupProp k U else lookupProp k T)
         else none)
    ∧ (k ∈ keysOf (Overwrite T U) ↔ k ∈ keysOf T) := by
  refine ⟨lookup_Overwrite T U k, ?_⟩
  rw [mem_keysOf_iff_lookup]
  constructor
  · rintro ⟨p, hp⟩
    rw [lookup_Overwrite] at hp
    by_cases hT : k ∈ keysOf T
    · exact hT
    · rw [if_neg hT] at hp
      cases hp
  · intro hT
    by_cases hU : k ∈ keysOf U
    · obtain ⟨p, hp⟩ := mem_keysOf_iff_lookup.mp hU
      exact ⟨p, by rw [lookup_Overwrite, if_pos hT, if_pos hU, hp]⟩
    · obtain ⟨p, hp⟩ := mem_keysOf_iff_lookup.mp hT
      exact ⟨p, by rw [lookup_Overwrite, if_pos hT, if_neg hU, hp]⟩

/-- C2: the type-level equality documented at `Assign` fails: evaluating
`Assign<{name: string; age: number; visible: boolean}, {age: string; other: string}>`
does not yield the documented `{name: string; age: number; visible: boolean; other: string}`
(the shared key `age` takes its type `string` from the second argument via
`Intersection<U, T>`, while the documentation writes `age: number`). -/
theorem claim_C2_assign_doc_counterexample :
    ¬ structEq (Ty.obj (Assign assignProps assignNewProps)) (Ty.obj assignDocExpected) := by
  intro h
  rw [structEq] at h
  rw [show canonTy (Ty.obj (Assign assignProps assignNewProps))
      = Ty.obj [.mk "age" false false (.prim .str), .mk "name" false false (.prim .str),
                .mk "other" false false (.prim .str), .mk "visible" false false (.prim .bool)]
      from rfl] at h
  rw [show canonTy (Ty.obj assignDocExpected)
      = Ty.obj [.mk "age" false false (.prim .num), .mk "name" false false (.prim .str),
                .mk "other" false false (.prim .str), .mk "visible" false false (.prim .bool)]
      from rfl] at h
  simp at h

/-- C2 (amended): the `Assign` documentation example structurally equals
`{name: string; age: string; visible: boolean; other: string}` - the
documented type with `age: string` (taken from `NewProps`) instead of
`age: number`. -/
theorem claim_C2_assign_amended :
    structEq (Ty.obj (Assign assignProps assignNewProps))
      (Ty.obj [.mk "name" false false (.prim .str), .mk "age" false false (.prim .str),
               .mk "visible" false false (.prim .bool), .mk "other" false false (.prim .str)]) :=
  rfl

/-- C8 fails as stated: in `{someUndef: undefined}`, the key `someUndef`
belongs to `FunctionKeys` (because `NonUndefined<undefined> = never` and
`never extends Function` holds), yet `NonUndefined<T[K]>` is not a function
type. -/
theorem claim_C8_counterexample :
    lookupProp "someUndef" [undefProp] = some undefProp ∧
    "someUndef" ∈ FunctionKeys [undefProp] ∧
    isFunctionTy (NonUndefined (valTy undefProp)) = false := by
  refine ⟨rfl, ?_, rfl⟩
  rw [show FunctionKeys [undefProp] = ["someUndef"] from rfl]
  simp

/-- C8 (amended): for an object type `T` (whose key names are distinct, as
they are in any object type), `FunctionKeys<T>` and `NonFunctionKeys<T>`
partition `keyof T`, and a key `K` belongs to `FunctionKeys<T>` precisely
when `NonUndefined<T[K]>` is assignable to `Function` - that is, when it is
a function type or `never`. -/
theorem claim_C8_partition_amended (T : List Property) (hnd : (keysOf T).Nodup) :
    (∀ k, k ∈ keysOf T ↔ (k ∈ FunctionKeys T ∨ k ∈ NonFunctionKeys T)) ∧
    (∀ k, ¬ (k ∈ FunctionKeys T ∧ k ∈ NonFunctionKeys T)) ∧
    (∀ k p, lookupProp k T = some p →
      (k ∈ FunctionKeys T ↔ extendsFunction (NonUndefined (valTy p)) = true)) := by
  have hinj : ∀ x ∈ T, ∀ y ∈ T, x.name = y.name → x = y :=
    fun x hx y hy hxy => List.inj_on_of_nodup_map hnd hx hy hxy
  refine ⟨?_, ?_, ?_⟩
  · intro k
    simp only [FunctionKeys, NonFunctionKeys, keysOf, List.mem_map, List.mem_filter]
    constructor
    · rintro ⟨p, hp, rfl⟩
      by_cases hf : extendsFunction (NonUndefined (valTy p)) = true
      · exact Or.inl ⟨p, ⟨hp, hf⟩, rfl⟩
      · refine Or.inr ⟨p, ⟨hp, ?_⟩, rfl⟩
        simp only [Bool.not_eq_true] at hf
        simp [hf]
    · rintro (⟨p, ⟨hp, h⟩, rfl⟩ | ⟨p, ⟨hp, h⟩, rfl⟩) <;> exact ⟨p, hp, rfl⟩
  · intro k hk
    obtain ⟨h1, h2⟩ := hk
    simp only [FunctionKeys, NonFunctionKeys, List.mem_map, List.mem_filter] at h1 h2
    obtain ⟨p, ⟨hp, hpf⟩, hpn⟩ := h1
    obtain ⟨q, ⟨hq, hqf⟩, hqn⟩ := h2
    cases hinj p hp q hq (hpn.trans hqn.symm)
    rw [hpf] at hqf
    simp at hqf
  · intro k p hl
    have hpT := lookupProp_mem hl
    have hpn := lookupProp_name hl
    constructor
    · intro hk
      simp only [FunctionKeys, List.mem_map, List.mem_filter] at hk
      obtain ⟨q, ⟨hq, hqf⟩, hqn⟩ := hk
      cases hinj q hq p hpT (hqn.trans hpn.symm)
      exact hqf
    · intro hf
      simp only [FunctionKeys, List.mem_map, List.mem_filter]
      exact ⟨p, ⟨hpT, hf⟩, hpn⟩

/-- Witness for the amended C8 at the `MixedProps` documentation example. -/
theorem claim_C8_partition_amended_witness :
    ("setName" ∈ keysOf mixedProps ↔
        ("setName" ∈ FunctionKeys mixedProps ∨ "setName" ∈ NonFunctionKeys mixedProps)) ∧
    ¬ ("name" ∈ FunctionKeys mixedProps ∧ "name" ∈ NonFunctionKeys mixedProps) :=
  ⟨(claim_C8_partition_amended mixedProps (by decide)).1 "setName",
   (claim_C8_partition_amended mixedProps (by decide)).2.1 "name"⟩

/-- C1: on every type of the claim's grammar (primitives, functions, arrays
and finitely nested object types), the structural recursion of each of the
four deep utilities terminates - fuel equal to the size of the input
already suffices for the fuel-bounded evaluator - and every sufficient
amount of fuel yields the same single well-defined result, namely the value
of the corresponding total function. -/
theorem claim_C1_deep_utilities_total (t : Ty) (_hp : PlainTy t = true) :
    ∀ n, sizeT t <= n →
      DeepReadonlyF n t = some (DeepReadonly t) ∧
      DeepRequiredF n t = some (DeepRequired t) ∧
      DeepNonNullableF n t = some (DeepNonNullable t) ∧
      DeepPartialF n t = some (DeepPartial t) := by
  intro n hn
  exact ⟨(DeepReadonlyF_sufficient n).1 t hn, (DeepRequiredF_sufficient n).1 t hn,
    (DeepNonNullableF_sufficient n).1 t hn, (DeepPartialF_sufficient n).1 t hn⟩

/-- A sample type of the C1/C10 grammar:
`{a?: number[]; readonly f: () => void}`. -/
def plainSample : Ty :=
  .obj [.mk "a" true false (.arr false (.prim .num)), .mk "f" false true .func]

/-- Witness for C1 at `plainSample` with fuel exactly its size. -/
theorem claim_C1_witness :
    PlainTy plainSample = true ∧
    (DeepReadonlyF (sizeT plainSample) plainSample = some (DeepReadonly plainSample) ∧
     DeepRequiredF (sizeT plainSample) plainSample = some (DeepRequired plainSample) ∧
     DeepNonNullableF (sizeT plainSample) plainSample = some (DeepNonNullable plainSample) ∧
     DeepPartialF (sizeT plainSample) plainSample = some (DeepPartial plainSample)) :=
  ⟨rfl, claim_C1_deep_utilities_total plainSample rfl (sizeT plainSample) (Nat.le_refl _)⟩

/-- C10: `DeepReadonly` is idempotent on the claim's grammar:
`DeepReadonly<DeepReadonly<T>>` structurally equals `DeepReadonly<T>`. -/
theorem claim_C10_deepReadonly_idempotent (t : Ty) (_hp : PlainTy t = true) :
    structEq (DeepReadonly (DeepReadonly t)) (DeepReadonly t) := by
  rw [structEq, DeepReadonly_idem t]

/-- Witness for C10 at `plainSample`. -/
theorem claim_C10_witness :
    structEq (DeepReadonly (DeepReadonly plainSample)) (DeepReadonly plainSample) :=
  claim_C10_deepReadonly_idempotent plainSample rfl

/-- C7: every exported utility is a deterministic, pure function of its
type parameters: two evaluations on structurally equal input types (for
union arguments: unions with the same member sets; for the `...ByValue`
utilities, additionally for any host-checker assignability relation that
itself depends only on the structural types) yield structurally equal
output types, with no dependence on anything beyond the parameters.  One
conjunct per parameterised export, in source order: `SetIntersection`,
`SetDifference`, `SetComplement`, `SymmetricDifference`, `NonUndefined`,
`FunctionKeys`, `NonFunctionKeys`, `WritableKeys`, `ReadonlyKeys`,
`RequiredKeys`, `OptionalKeys`, `PickByValue`, `PickByValueExact`, `Omit`,
`OmitByValue`, `OmitByValueExact`, `Intersection`, `Diff`, `Subtract`,
`Overwrite`, `Assign`, `Exact`, `Unionize`, `PromiseType`, `DeepReadonly`,
`DeepRequired`, `DeepNonNullable`, `DeepPartial`, `Brand`, `Optional`.
The two remaining exports `Primitive` and `Falsey` are constants with no
type parameters, for which the property is vacuous, and the `@private`
`_Deep...Array`/`_Deep...Object` helpers are the components of the four
deep conjuncts.  Object-type arguments carry the key-name distinctness
every object type has. -/
theorem claim_C7_pure_congruence :
    (∀ A A' B B' : List String,
      (∀ x, x ∈ A ↔ x ∈ A') → (∀ x, x ∈ B ↔ x ∈ B') →
      ∀ x, x ∈ SetIntersection A B ↔ x ∈ SetIntersection A' B') ∧
    (∀ A A' B B' : List String,
      (∀ x, x ∈ A ↔ x ∈ A') → (∀ x, x ∈ B ↔ x ∈ B') →
      ∀ x, x ∈ SetDifference A B ↔ x ∈ SetDifference A' B') ∧
    (∀ A A' B B' : List String,
      (∀ x, x ∈ A ↔ x ∈ A') → (∀ x, x ∈ B ↔ x ∈ B') →
      ∀ x, x ∈ SetComplement A B ↔ x ∈ SetComplement A' B') ∧
    (∀ A A' B B' : List String,
      (∀ x, x ∈ A ↔ x ∈ A') → (∀ x, x ∈ B ↔ x ∈ B') →
      ∀ x, x ∈ SymmetricDifference A B ↔ x ∈ SymmetricDifference A' B') ∧
    (∀ t t' : Ty, structEq t t' → structEq (NonUndefined t) (NonUndefined t')) ∧
    (∀ T T' : List Property, structEq (.obj T) (.obj T') →
      ∀ k, k ∈ FunctionKeys T ↔ k ∈ FunctionKeys T') ∧
    (∀ T T' : List Property, structEq (.obj T) (.obj T') →
      ∀ k, k ∈ NonFunctionKeys T ↔ k ∈ NonFunctionKeys T') ∧
    (∀ T T' : List Property, structEq (.obj T) (.obj T') →
      ∀ k, k ∈ WritableKeys T ↔ k ∈ WritableKeys T') ∧
    (∀ T T' : List Property, structEq (.obj T) (.obj T') →
      ∀ k, k ∈ ReadonlyKeys T ↔ k ∈ ReadonlyKeys T') ∧
    (∀ T T' : List Property, structEq (.obj T) (.obj T') →
      ∀ k, k ∈ RequiredKeys T ↔ k ∈ RequiredKeys T') ∧
    (∀ T T' : List Property, structEq (.obj T) (.obj T') →
      ∀ k, k ∈ OptionalKeys T ↔ k ∈ OptionalKeys T') ∧
    (∀ ext : Ty → Ty → Bool, (∀ a b, ext a b = ext (canonTy a) (canonTy b)) →
      ∀ (T T' : List Property) (V V' : Ty),
      (keysOf T).Nodup → (keysOf T').Nodup →
      structEq (.obj T) (.obj T') → structEq V V' →
      structEq (.obj (PickByValue ext T V)) (.obj (PickByValue ext T' V'))) ∧
    (∀ ext : Ty → Ty → Bool, (∀ a b, ext a b = ext (canonTy a) (canonTy b)) →
      ∀ (T T' : List Property) (V V' : Ty),
      (keysOf T).Nodup → (keysOf T').Nodup →
      structEq (.obj T) (.obj T') → structEq V V' →
      structEq (.obj (PickByValueExact ext T V)) (.obj (PickByValueExact ext T' V'))) ∧
    (∀ (T T' : List Property) (K K' : List String),
      (keysOf T).Nodup → (keysOf T').Nodup →
      structEq (.obj T) (.obj T') → (∀ k, k ∈ K ↔ k ∈ K') →
      structEq (.obj (Omit T K)) (.obj (Omit T' K'))) ∧
    (∀ ext : Ty → Ty → Bool, (∀ a b, ext a b = ext (canonTy a) (canonTy b)) →
      ∀ (T T' : List Property) (V V' : Ty),
      (keysOf T).Nodup → (keysOf T').Nodup →
      structEq (.obj T) (.obj T') → structEq V V' →
      structEq (.obj (OmitByValue ext T V)) (.obj (OmitByValue ext T' V'))) ∧
    (∀ ext : Ty → Ty → Bool, (∀ a b, ext a b = ext (canonTy a) (canonTy b)) →
      ∀ (T T' : List Property) (V V' : Ty),
      (keysOf T).Nodup → (keysOf T').Nodup →
      structEq (.obj T) (.obj T') → structEq V V' →
      structEq (.obj (OmitByValueExact ext T V)) (.obj (OmitByValueExact ext T' V'))) ∧
    (∀ T T' U U' : List Property,
      (keysOf T).Nodup → (keysOf T').Nodup →
      structEq (.obj T) (.obj T') → structEq (.obj U) (.obj U') →
      structEq (.obj (Intersection T U)) (.obj (Intersection T' U'))) ∧
    (∀ T T' U U' : List Property,
      (keysOf T).Nodup → (keysOf T').Nodup →
      structEq (.obj T) (.obj T') → structEq (.obj U) (.obj U') →
      structEq (.obj (Diff T U)) (.obj (Diff T' U'))) ∧
    (∀ T T' T1 T1' : List Property,
      (keysOf T).Nodup → (keysOf T').Nodup →
      structEq (.obj T) (.obj T') → structEq (.obj T1) (.obj T1') →
      structEq (.obj (Subtract T T1)) (.obj (Subtract T' T1'))) ∧
    (∀ T T' U U' : List Property,
      (keysOf T).Nodup → (keysOf T').Nodup → (keysOf U).Nodup → (keysOf U').Nodup →
      structEq (.obj T) (.obj T') → structEq (.obj U) (.obj U') →
      structEq (.obj (Overwrite T U)) (.obj (Overwrite T' U'))) ∧
    (∀ T T' U U' : List Property,
      (keysOf T).Nodup → (keysOf T').Nodup → (keysOf U).Nodup → (keysOf U').Nodup →
      structEq (.obj T) (.obj T') → structEq (.obj U) (.obj U') →
      structEq (.obj (Assign T U)) (.obj (Assign T' U'))) ∧
    (∀ T T' : List Property, structEq (.obj T) (.obj T') →
      structEqExact (Exact T) (Exact T')) ∧
    (∀ T T' : List Property, structEq (.obj T) (.obj T') →
      ((Unionize T).map canonTy).Perm ((Unionize T').map canonTy)) ∧
    (∀ t t' : PTy, structEqP t t' → structEqP (PromiseType t) (PromiseType t')) ∧
    (∀ t t' : Ty, structEq t t' → structEq (DeepReadonly t) (DeepReadonly t')) ∧
    (∀ t t' : Ty, structEq t t' → structEq (DeepRequired t) (DeepRequired t')) ∧
    (∀ t t' : Ty, structEq t t' → structEq (DeepNonNullable t) (DeepNonNullable t')) ∧
    (∀ t t' : Ty, structEq t t' → structEq (DeepPartial t) (DeepPartial t')) ∧
    (∀ t t' u u' : Ty, structEq t t' → structEq u u' →
      structEqI (Brand t u) (Brand t' u')) ∧
    (∀ (T T' : List Property) (K K' : List String),
      (keysOf T).Nodup → (keysOf T').Nodup → K.Nodup → K'.Nodup →
      structEq (.obj T) (.obj T') → (∀ k, k ∈ K ↔ k ∈ K') →
      structEq (.obj (Optional T K)) (.obj (Optional T' K'))) :=
  ⟨fun A A' B B' hA hB x => by
      simp only [SetIntersection, List.mem_filter, decide_eq_true_eq]
      rw [hA x, hB x],
   fun A A' B B' hA hB x => by
      simp only [SetDifference, List.mem_filter, decide_eq_true_eq]
      rw [hA x, hB x],
   fun A A' B B' hA hB x => by
      simp only [SetComplement, SetDifference, List.mem_filter, decide_eq_true_eq]
      rw [hA x, hB x],
   fun A A' B B' hA hB x => by
      simp only [SymmetricDifference, SetDifference, SetIntersection, List.mem_filter,
        List.mem_append, decide_eq_true_eq, decide_not, Bool.not_eq_true',
        decide_eq_false_iff_not, hA, hB],
   fun _ _ h => NonUndefined_congr h,
   fun _ _ h k => FunctionKeys_congr h k,
   fun _ _ h k => NonFunctionKeys_congr h k,
   fun _ _ h k => WritableKeys_congr h k,
   fun _ _ h k => ReadonlyKeys_congr h k,
   fun _ _ h k => RequiredKeys_congr h k,
   fun _ _ h k => OptionalKeys_congr h k,
   fun ext hext _ _ _ _ h1 h2 h3 h4 => PickByValue_congr ext hext h1 h2 h3 h4,
   fun ext hext _ _ _ _ h1 h2 h3 h4 => PickByValueExact_congr ext hext h1 h2 h3 h4,
   fun _ _ _ _ h1 h2 h3 h4 => Omit_congr h1 h2 h3 h4,
   fun ext hext _ _ _ _ h1 h2 h3 h4 => OmitByValue_congr ext hext h1 h2 h3 h4,
   fun ext hext _ _ _ _ h1 h2 h3 h4 => OmitByValueExact_congr ext hext h1 h2 h3 h4,
   fun _ _ _ _ h1 h2 h3 h4 => Intersection_congr h1 h2 h3 h4,
   fun _ _ _ _ h1 h2 h3 h4 => Diff_congr h1 h2 h3 h4,
   fun _ _ _ _ h1 h2 h3 h4 => Subtract_congr h1 h2 h3 h4,
   fun _ _ _ _ h1 h2 h3 h4 h5 h6 => Overwrite_congr h1 h2 h3 h4 h5 h6,
   fun _ _ _ _ h1 h2 h3 h4 h5 h6 => Assign_congr h1 h2 h3 h4 h5 h6,
   fun _ _ h => Exact_congr h,
   fun _ _ h => Unionize_congr h,
   fun _ _ h => PromiseType_congr h,
   fun _ _ h => DeepReadonly_congr h,
   fun _ _ h => DeepRequired_congr h,
   fun _ _ h => DeepNonNullable_congr h,
   fun _ _ h => DeepPartial_congr h,
   fun _ _ _ _ h1 h2 => Brand_congr h1 h2,
   fun _ _ _ _ h1 h2 h3 h4 h5 h6 => Optional_congr h1 h2 h3 h4 h5 h6⟩

/-- Sample object types for the C7 witness: `{a: number; b: string}` written
in two different property orders, and `{b: boolean}`. -/
def sampleT : List Property :=
  [.mk "a" false false (.prim .num), .mk "b" false false (.prim .str)]

def sampleTrev : List Property :=
  [.mk "b" false false (.prim .str), .mk "a" false false (.prim .num)]

def sampleU : List Property := [.mk "b" false false (.prim .bool)]

/-- A concrete host-checker assignability relation for the C7 witness
(`a` is assignable to anything iff it extends `Function`); it depends only
on the structural types. -/
def extSample : Ty → Ty → Bool := fun a _ => extendsFunction a

/-- Witness for C7, exercising every conjunct at concrete inputs: the same
object type written in two property orders, the same key union written in
two member orders, and the concrete relation `extSample`. -/
theorem claim_C7_witness :
    ("x" ∈ SetIntersection ["x", "y"] ["y"] ↔ "x" ∈ SetIntersection ["y", "x"] ["y"]) ∧
    ("x" ∈ SetDifference ["x", "y"] ["y"] ↔ "x" ∈ SetDifference ["y", "x"] ["y"]) ∧
    ("x" ∈ SetComplement ["x", "y"] ["y"] ↔ "x" ∈ SetComplement ["y", "x"] ["y"]) ∧
    ("x" ∈ SymmetricDifference ["x", "y"] ["y"] ↔ "x" ∈ SymmetricDifference ["y", "x"] ["y"]) ∧
    structEq (NonUndefined (Ty.obj sampleT)) (NonUndefined (Ty.obj sampleTrev)) ∧
    ("a" ∈ FunctionKeys sampleT ↔ "a" ∈ FunctionKeys sampleTrev) ∧
    ("a" ∈ NonFunctionKeys sampleT ↔ "a" ∈ NonFunctionKeys sampleTrev) ∧
    ("a" ∈ WritableKeys sampleT ↔ "a" ∈ WritableKeys sampleTrev) ∧
    ("a" ∈ ReadonlyKeys sampleT ↔ "a" ∈ ReadonlyKeys sampleTrev) ∧
    ("a" ∈ RequiredKeys sampleT ↔ "a" ∈ RequiredKeys sampleTrev) ∧
    ("a" ∈ OptionalKeys sampleT ↔ "a" ∈ OptionalKeys sampleTrev) ∧
    structEq (.obj (PickByValue extSample sampleT Ty.func))
      (.obj (PickByValue extSample sampleTrev Ty.func)) ∧
    structEq (.obj (PickByValueExact extSample sampleT Ty.func))
      (.obj (PickByValueExact extSample sampleTrev Ty.func)) ∧
    structEq (.obj (Omit sampleT ["a"])) (.obj (Omit sampleTrev ["a"])) ∧
    structEq (.obj (OmitByValue extSample sampleT Ty.func))
      (.obj (OmitByValue extSample sampleTrev Ty.func)) ∧
    structEq (.obj (OmitByValueExact extSample sampleT Ty.func))
      (.obj (OmitByValueExact extSample sampleTrev Ty.func)) ∧
    structEq (.obj (Intersection sampleT sampleU)) (.obj (Intersection sampleTrev sampleU)) ∧
    structEq (.obj (Diff sampleT sampleU)) (.obj (Diff sampleTrev sampleU)) ∧
    structEq (.obj (Subtract sampleT sampleU)) (.obj (Subtract sampleTrev sampleU)) ∧
    structEq (.obj (Overwrite sampleT sampleU)) (.obj (Overwrite sampleTrev sampleU)) ∧
    structEq (.obj (Assign sampleT sampleU)) (.obj (Assign sampleTrev sampleU)) ∧
    structEqExact (Exact sampleT) (Exact sampleTrev) ∧
    ((Unionize sampleT).map canonTy).Perm ((Unionize sampleTrev).map canonTy) ∧
    structEqP (PromiseType (PTy.promise (PTy.base (Ty.obj sampleT))))
      (PromiseType (PTy.promise (PTy.base (Ty.obj sampleTrev)))) ∧
    structEq (DeepReadonly (Ty.obj sampleT)) (DeepReadonly (Ty.obj sampleTrev)) ∧
    structEq (DeepRequired (Ty.obj sampleT)) (DeepRequired (Ty.obj sampleTrev)) ∧
    structEq (DeepNonNullable (Ty.obj sampleT)) (DeepNonNullable (Ty.obj sampleTrev)) ∧
    structEq (DeepPartial (Ty.obj sampleT)) (DeepPartial (Ty.obj sampleTrev)) ∧
    structEqI (Brand (Ty.obj sampleT) (Ty.obj sampleU))
      (Brand (Ty.obj sampleTrev) (Ty.obj sampleU)) ∧
    structEq (.obj (Optional sampleT ["a"])) (.obj (Optional sampleTrev ["a"])) := by
  obtain ⟨c1, c2, c3, c4, c5, c6, c7, c8, c9, c10, c11, c12, c13, c14, c15, c16, c17,
    c18, c19, c20, c21, c22, c23, c24, c25, c26, c27, c28, c29, c30⟩ :=
    claim_C7_pure_congruence
  have hxy : ∀ x : String, x ∈ (["x", "y"] : List String) ↔ x ∈ (["y", "x"] : List String) := by
    intro x
    constructor <;> intro h <;> (simp at h ⊢; tauto)
  have hy : ∀ x : String, x ∈ (["y"] : List String) ↔ x ∈ (["y"] : List String) :=
    fun _ => Iff.rfl
  have ha : ∀ k : String, k ∈ (["a"] : List String) ↔ k ∈ (["a"] : List String) :=
    fun _ => Iff.rfl
  have hextS : ∀ a b, extSample a b = extSample (canonTy a) (canonTy b) :=
    fun a _ => (extendsFunction_canon a).symm
  exact ⟨c1 ["x", "y"] ["y", "x"] ["y"] ["y"] hxy hy "x",
    c2 ["x", "y"] ["y", "x"] ["y"] ["y"] hxy hy "x",
    c3 ["x", "y"] ["y", "x"] ["y"] ["y"] hxy hy "x",
    c4 ["x", "y"] ["y", "x"] ["y"] ["y"] hxy hy "x",
    c5 (Ty.obj sampleT) (Ty.obj sampleTrev) rfl,
    c6 sampleT sampleTrev rfl "a",
    c7 sampleT sampleTrev rfl "a",
    c8 sampleT sampleTrev rfl "a",
    c9 sampleT sampleTrev rfl "a",
    c10 sampleT sampleTrev rfl "a",
    c11 sampleT sampleTrev rfl "a",
    c12 extSample hextS sampleT sampleTrev Ty.func Ty.func (by decide) (by decide) rfl rfl,
    c13 extSample hextS sampleT sampleTrev Ty.func Ty.func (by decide) (by decide) rfl rfl,
    c14 sampleT sampleTrev ["a"] ["a"] (by decide) (by decide) rfl ha,
    c15 extSample hextS sampleT sampleTrev Ty.func Ty.func (by decide) (by decide) rfl rfl,
    c16 extSample hextS sampleT sampleTrev Ty.func Ty.func (by decide) (by decide) rfl rfl,
    c17 sampleT sampleTrev sampleU sampleU (by decide) (by decide) rfl rfl,
    c18 sampleT sampleTrev sampleU sampleU (by decide) (by decide) rfl rfl,
    c19 sampleT sampleTrev sampleU sampleU (by decide) (by decide) rfl rfl,
    c20 sampleT sampleTrev sampleU sampleU (by decide) (by decide) (by decide) (by decide) rfl rfl,
    c21 sampleT sampleTrev sampleU sampleU (by decide) (by decide) (by decide) (by decide) rfl rfl,
    c22 sampleT sampleTrev rfl,
    c23 sampleT sampleTrev rfl,
    c24 (PTy.promise (PTy.base (Ty.obj sampleT))) (PTy.promise (PTy.base (Ty.obj sampleTrev))) rfl,
    c25 (Ty.obj sampleT) (Ty.obj sampleTrev) rfl,
    c26 (Ty.obj sampleT) (Ty.obj sampleTrev) rfl,
    c27 (Ty.obj sampleT) (Ty.obj sampleTrev) rfl,
    c28 (Ty.obj sampleT) (Ty.obj sampleTrev) rfl,
    c29 (Ty.obj sampleT) (Ty.obj sampleTrev) (Ty.obj sampleU) (Ty.obj sampleU) rfl rfl,
    c30 sampleT sampleTrev ["a"] ["a"] (by decide) (by decide) (by decide) (by decide) rfl ha⟩

end UT

